import Mathlib

/-
  Verification development for the cleanup duplicate-file remover
  (src/src/main.rs).

  The program is embedded shallowly:

  * An Entry models one directory entry as the program observes it:
    its path (abstracted to a numeric name), creation timestamp,
    metadata length (the non-followed length reported by
    DirEntry::metadata), file type, and the byte content that fs::read
    would return.  Boolean flags model whether each fallible
    filesystem operation on this entry succeeds (reading metadata,
    reading the creation timestamp, reading the content, removing the
    file, creating a symbolic link at its path).
  * A Node is a directory tree: a non-directory entry, or a directory
    with a listing-success flag and children.
  * The SHA-1 digest is abstracted to a parameter dig from byte lists
    into a type with decidable equality; the program treats digest
    equality as content equality, so theorems that need
    collision-freedom take injectivity of dig as a hypothesis.
  * stepEntry / runBucket translate the body of the per-bucket loop of
    process_directory: read the file, hash it, look the digest up in
    the bucket-local map, and either record the entry as canonical or
    count it as a duplicate and perform the configured action.  The
    counter increment and every filesystem effect is recorded as an
    Event in a trace; fallible operations abort with the RunError that
    the corresponding expect/panic in the source raises.
  * pushBucket / collectBuckets translate the size-bucket map keyed by
    metadata length; sortByCreated translates entries.sort_by on the
    creation timestamp (a stable insertion sort; only the fact that it
    permutes its input matters below).
  * process_directory / processChildren translate the recursive walker:
    fail if the listing fails, fail if the metadata or creation
    timestamp of an entry is unavailable, recurse into subdirectories
    that are not symbolic links, bucket everything else by length, and
    run the resolver on every bucket with at least two entries.
  * applyTrace replays the recorded deletions and link creations on the
    children of a directory, yielding the directory content after the
    run, so that claims about the state of the tree after a run can be
    stated.
  * CountRel is the scheduling-nondeterministic counting semantics: the
    source inserts entries into the size buckets from a rayon par_iter
    loop, so the order of each bucket list is an arbitrary permutation
    of the creation-sorted order; CountRel relates a tree to every
    duplicate count reachable under some such permutation choice.
-/

namespace Cleanup

/-- One byte of file content. -/
abbrev Byte := Nat

/-- The file type of a directory entry, as DirEntry::file_type reports
it (without following symbolic links). -/
inductive FileType where
  | regular
  | symlink
  | directory
deriving DecidableEq, Repr

/-- Translation of FileType::is_dir. -/
def FileType.is_dir : FileType → Bool
  | .directory => true
  | _ => false

/-- Translation of FileType::is_symlink. -/
def FileType.is_symlink : FileType → Bool
  | .symlink => true
  | _ => false

/-- The run configuration, from struct Opt: the dry and symlink flags. -/
structure Opt where
  dry : Bool
  symlink : Bool
deriving DecidableEq, Repr

/-- One directory entry as the program observes it.  The name stands
for the path of the entry; created is the creation timestamp; len is
the length from DirEntry::metadata (not following links); content is
what fs::read of the path returns.  The Ok flags state whether the
fallible operations on this entry succeed: metadata, created, fs::read,
fs::remove_file, and symlink creation at this path. -/
structure Entry where
  name : Nat
  created : Nat
  len : Nat
  ftype : FileType
  content : List Byte
  metaOk : Bool
  createdOk : Bool
  readOk : Bool
  removeOk : Bool
  linkOk : Bool
deriving DecidableEq, Repr

/-- A directory tree.  A file node is any non-directory entry (regular
file or symbolic link).  A dir node carries its own entry, whether
fs::read_dir of it succeeds, and its children. -/
inductive Node where
  | file (e : Entry)
  | dir (e : Entry) (listOk : Bool) (children : List Node)

/-- The entry (path and metadata) of a node. -/
def Node.info : Node → Entry
  | .file e => e
  | .dir e _ _ => e

/-- The file type of a node as entry.file_type() reports it: an actual
directory has type directory, every other entry has its own type. -/
def Node.ftype : Node → FileType
  | .file e => e.ftype
  | .dir _ _ _ => .directory

/-- The recursion test of process_directory:
file_type.is_dir() AND NOT file_type.is_symlink(). -/
def isDirNotSymlink (n : Node) : Bool :=
  n.ftype.is_dir && !n.ftype.is_symlink

/-- The fatal error conditions of the run; each corresponds to an
expect or panic in the source. -/
inductive RunError where
  | dirUnreadable
  | metadataUnavailable
  | timestampUnsupported
  | fileReadFailed
  | deleteFailed
  | linkFailed
deriving DecidableEq, Repr

/-- Observable steps of the resolver, recorded in a trace: hashed marks
the whole-file read plus digest computation of an entry; then the entry
is either registered as canonical or found to be a duplicate of the
named canonical (the counter increment); a duplicate is then reported
(dry run) or removed, and in link mode a symbolic link to the canonical
path is created, whose resolution yields the canonical content. -/
inductive Event where
  | hashed (name : Nat)
  | insertedCanonical (name : Nat)
  | dupFound (name : Nat) (target : Nat)
  | reported (name : Nat)
  | removed (name : Nat)
  | linked (name : Nat) (target : Nat) (targetContent : List Byte)
deriving DecidableEq, Repr

/-- The name (path) of the entry an event is about. -/
def evName : Event → Nat
  | .hashed n => n
  | .insertedCanonical n => n
  | .dupFound n _ => n
  | .reported n => n
  | .removed n => n
  | .linked n _ _ => n

/-- Whether an event is a dry-run duplicate report. -/
def isReportedEvt : Event → Bool
  | .reported _ => true
  | _ => false

/-- Whether an event is a counter increment (a duplicate found). -/
def isDupFoundEvt : Event → Bool
  | .dupFound _ _ => true
  | _ => false

/-- Shared run state: the event trace and the process-wide duplicate
counter. -/
structure GState where
  trace : List Event
  count : Nat
deriving DecidableEq, Repr

section Digest

variable {α : Type} [DecidableEq α] (dig : List Byte → α)

/-- One iteration of the per-bucket loop in process_directory: read the
file (fatal on failure), hash it, look the digest up in the
bucket-local map.  On a hit the duplicate counter is incremented first;
then, unless this is a dry run, the file is removed (fatal on failure)
and, in symlink mode on a platform with symbolic links, a link to the
canonical path is created (fatal on failure); a dry run only reports
the duplicate.  On a miss the digest is registered with this entry as
canonical. -/
def stepEntry (o : Opt) (unix : Bool) (hashes : List (α × Entry)) (g : GState)
    (e : Entry) : Except (RunError × GState) (List (α × Entry) × GState) :=
  if e.readOk = false then .error (.fileReadFailed, g) else
  let d := dig e.content
  let g1 : GState := { g with trace := g.trace ++ [.hashed e.name] }
  match hashes.find? (fun p => p.1 = d) with
  | some p =>
      let g2 : GState := { g1 with
        count := g1.count + 1
        trace := g1.trace ++ [.dupFound e.name p.2.name] }
      if o.dry = false then
        if e.removeOk = false then .error (.deleteFailed, g2) else
        let g3 : GState := { g2 with trace := g2.trace ++ [.removed e.name] }
        if unix && o.symlink then
          if e.linkOk = false then .error (.linkFailed, g3) else
          .ok (hashes, { g3 with
            trace := g3.trace ++ [.linked e.name p.2.name p.2.content] })
        else .ok (hashes, g3)
      else .ok (hashes, { g2 with trace := g2.trace ++ [.reported e.name] })
  | none => .ok (hashes ++ [(d, e)],
      { g1 with trace := g1.trace ++ [.insertedCanonical e.name] })

/-- The per-bucket loop of process_directory: fold stepEntry over the
entries of one size bucket in their list order, threading the
bucket-local digest map and the shared state. -/
def runBucket (o : Opt) (unix : Bool) :
    List (α × Entry) → GState → List Entry →
    Except (RunError × GState) (List (α × Entry) × GState)
  | hashes, g, [] => .ok (hashes, g)
  | hashes, g, e :: rest =>
    match stepEntry dig o unix hashes g e with
    | .error err => .error err
    | .ok (h2, g2) => runBucket o unix h2 g2 rest

end Digest

/-- Insert one entry at the back of its size bucket, creating the
bucket when absent: file_sizes.entry(len).or_default().push(entry). -/
def pushBucket (m : List (Nat × List Entry)) (k : Nat) (e : Entry) :
    List (Nat × List Entry) :=
  match m with
  | [] => [(k, [e])]
  | (k2, v) :: rest =>
    if k2 = k then (k2, v ++ [e]) :: rest
    else (k2, v) :: pushBucket rest k e

/-- Build the size-bucket map of one directory from its file entries in
list order. -/
def collectBuckets (l : List Entry) : List (Nat × List Entry) :=
  l.foldl (fun m e => pushBucket m e.len e) []

/-- The bucket stored under a key (empty when the key is absent; the
first matching key wins, matching HashMap lookup on a map whose keys
are distinct). -/
def bucketAt : List (Nat × List Entry) → Nat → List Entry
  | [], _ => []
  | (k2, v) :: rest, k => if k2 = k then v else bucketAt rest k

/-- Insert an entry into a list that is ordered by ascending creation
timestamp, before the first entry with a timestamp at least as large. -/
def insertByCreated (e : Entry) : List Entry → List Entry
  | [] => [e]
  | x :: rest =>
    if e.created ≤ x.created then e :: x :: rest
    else x :: insertByCreated e rest

/-- Translation of entries.sort_by on the creation timestamp (a stable
sort; the development only uses that the result is a permutation of the
input). -/
def sortByCreated (l : List Entry) : List Entry :=
  l.foldr insertByCreated []

/-- The entries of a directory listing that are not recursed into:
everything except actual non-symlink directories.  These are the
entries inserted into the size buckets. -/
def filesOf (children : List Node) : List Entry :=
  (children.filter (fun c => !(isDirNotSymlink c))).map Node.info

section Run

variable {α : Type} [DecidableEq α] (dig : List Byte → α)

/-- The bucket phase of process_directory: every bucket whose entry
list has more than one element is resolved with a fresh bucket-local
digest map; singleton buckets are skipped. -/
def runBuckets (o : Opt) (unix : Bool) :
    GState → List (Nat × List Entry) → Except (RunError × GState) GState
  | g, [] => .ok g
  | g, (_, b) :: rest =>
    if 1 < b.length then
      match runBucket dig o unix [] g b with
      | .error err => .error err
      | .ok (_, g2) => runBuckets o unix g2 rest
    else runBuckets o unix g rest

/-- Whether a removed event for this name occurs in a trace. -/
def traceDeleted (tr : List Event) (n : Nat) : Bool :=
  tr.any (fun ev => match ev with
    | .removed m => m = n
    | _ => false)

/-- The first link creation recorded for this name, with the canonical
target name and the content its resolution yields. -/
def traceLink (tr : List Event) (n : Nat) : Option (Nat × List Byte) :=
  tr.findSome? (fun ev => match ev with
    | .linked m t tc => if m = n then some (t, tc) else none
    | _ => none)

/-- Replay the filesystem effects recorded in a trace on the children
of the directory: a file for which a link was created becomes a
symbolic link resolving to the canonical content; a removed file
disappears; everything else is unchanged. -/
def applyTrace (tr : List Event) (cs : List Node) : List Node :=
  cs.filterMap (fun c => match c with
    | .dir e lOk children => some (.dir e lOk children)
    | .file e =>
      match traceLink tr e.name with
      | some (_, tc) => some (.file { e with ftype := .symlink, content := tc })
      | none =>
        if traceDeleted tr e.name then none
        else some (.file e))

mutual

/-- Translation of process_directory.  For a directory: fail when the
listing fails; fail when the metadata of some entry is unavailable;
fail when there are at least two entries (so that the sorting
comparator runs) and some creation timestamp is unavailable; recurse
into each non-symlink subdirectory; bucket the remaining entries by
metadata length in creation order; resolve every bucket with more than
one entry; return the directory with the recorded deletions and link
creations applied, together with the total duplicate count of the
subtree. -/
def process_directory (o : Opt) (unix : Bool) :
    Node → Except RunError (Node × Nat)
  | .file e => .ok (.file e, 0)
  | .dir e listOk children =>
    if listOk = false then .error .dirUnreadable
    else if children.any (fun c => c.info.metaOk = false) then
      .error .metadataUnavailable
    else if 2 ≤ children.length ∧ children.any (fun c => c.info.createdOk = false) then
      .error .timestampUnsupported
    else
      match processChildren o unix children with
      | .error err => .error err
      | .ok (children2, subCount) =>
        match runBuckets dig o unix ⟨[], 0⟩
            (collectBuckets (sortByCreated (filesOf children))) with
        | .error (err, _) => .error err
        | .ok g =>
          .ok (.dir e listOk (applyTrace g.trace children2), subCount + g.count)

/-- Spawn a child task per non-symlink subdirectory and pass every
other entry through unchanged, summing the duplicate counts of the
children. -/
def processChildren (o : Opt) (unix : Bool) :
    List Node → Except RunError (List Node × Nat)
  | [] => .ok ([], 0)
  | c :: rest =>
    match (if isDirNotSymlink c then process_directory o unix c
           else .ok (c, 0)) with
    | .error err => .error err
    | .ok (c2, k) =>
      match processChildren o unix rest with
      | .error err => .error err
      | .ok (rest2, k2) => .ok (c2 :: rest2, k + k2)

end

/-- Translation of main: run the scan from the root, join, and print
one summary line with the final counter value; a fatal error aborts
the process without a summary. -/
def mainRun (o : Opt) (unix : Bool) (root : Node) : Except RunError String :=
  match process_directory dig o unix root with
  | .error err => .error err
  | .ok (_, n) =>
    .ok (if o.dry then "Would have deleted " ++ toString n ++ " files"
         else "Deleted " ++ toString n ++ " files")

/-- The number of counter increments that the per-bucket loop performs
on a list of entries, starting from a given bucket-local digest map:
one per entry whose digest is already registered. -/
def countDups (h : List (α × Entry)) : List Entry → Nat
  | [] => 0
  | e :: rest =>
    match h.find? (fun p => p.1 = dig e.content) with
    | some _ => countDups h rest + 1
    | none => countDups (h ++ [(dig e.content, e)]) rest

/-- The bucket-local digest map after the per-bucket loop. -/
def hashesOf (h : List (α × Entry)) : List Entry → List (α × Entry)
  | [] => h
  | e :: rest =>
    match h.find? (fun p => p.1 = dig e.content) with
    | some _ => hashesOf h rest
    | none => hashesOf (h ++ [(dig e.content, e)]) rest

/-- The events that the per-bucket loop appends to the trace when no
operation fails. -/
def traceOf (o : Opt) (unix : Bool) (h : List (α × Entry)) :
    List Entry → List Event
  | [] => []
  | e :: rest =>
    match h.find? (fun p => p.1 = dig e.content) with
    | some p =>
      [.hashed e.name, .dupFound e.name p.2.name] ++
      (if o.dry = false then
        [.removed e.name] ++
        (if unix && o.symlink then [.linked e.name p.2.name p.2.content] else [])
       else [.reported e.name]) ++
      traceOf o unix h rest
    | none =>
      [.hashed e.name, .insertedCanonical e.name] ++
      traceOf o unix (h ++ [(dig e.content, e)]) rest

/-- The events of the whole bucket phase: the concatenation of the
per-bucket traces of the buckets with more than one entry. -/
def tracesOf (o : Opt) (unix : Bool) : List (Nat × List Entry) → List Event
  | [] => []
  | (_, b) :: rest =>
    (if 1 < b.length then traceOf dig o unix [] b else []) ++
    tracesOf o unix rest

/-- The total duplicate count of the bucket phase of one directory. -/
def bucketsCount (m : List (Nat × List Entry)) : Nat :=
  (m.map (fun kb => if 1 < kb.2.length then countDups dig [] kb.2 else 0)).sum

/-- Whether every fallible operation that the resolver performs on this
entry under the given configuration succeeds: the content read, and for
a destructive run the removal and (in link mode on a unix platform)
the link creation. -/
def entryOpOk (o : Opt) (unix : Bool) (e : Entry) : Bool :=
  e.readOk && (o.dry || (e.removeOk && (!(unix && o.symlink) || e.linkOk)))

mutual

/-- Whether a whole tree can be processed without hitting any fatal
condition: every listing succeeds, every metadata and timestamp read
succeeds, and every bucketed entry supports the configured actions. -/
def nodeOk (o : Opt) (unix : Bool) : Node → Bool
  | .file _ => true
  | .dir _ listOk children => listOk && childrenOk o unix children

/-- nodeOk for the children of one directory. -/
def childrenOk (o : Opt) (unix : Bool) : List Node → Bool
  | [] => true
  | c :: rest =>
    c.info.metaOk && c.info.createdOk &&
    (if isDirNotSymlink c then nodeOk o unix c else entryOpOk o unix c.info) &&
    childrenOk o unix rest

end

end Run

/-- The specified duplicate count of one directory: its bucketed
entries are partitioned into groups of equal metadata length and equal
content; each group retains one member, so the duplicate count is the
number of entries minus the number of groups. -/
def dirDupCount (files : List Entry) : Nat :=
  files.length - ((files.map (fun f => (f.len, f.content))).toFinset.card)

mutual

/-- The specified duplicate count of a whole tree: the sum over every
directory of the per-directory count of non-retained members of
duplicate groups. -/
def specCountNode : Node → Nat
  | .file _ => 0
  | .dir _ _ children => specCountList children + dirDupCount (filesOf children)

/-- specCountNode summed over the subdirectories of a directory. -/
def specCountList : List Node → Nat
  | [] => 0
  | c :: rest =>
    (if isDirNotSymlink c then specCountNode c else 0) + specCountList rest

end

section Sched

variable {α : Type} [DecidableEq α] (dig : List Byte → α)

/-- The scheduling-nondeterministic counting semantics.  The source
fills each size bucket from a rayon par_iter loop, so the entries of a
bucket may end up in any permutation of the creation-sorted order;
everything else that scheduling can reorder (sibling directories,
sibling buckets) only changes the order in which a commutative counter
is incremented.  CountRel relates a tree to every total count that some
schedule can produce: each bucket with more than one entry contributes
the count of the per-bucket loop run on some permutation of it, and
each non-symlink subdirectory contributes recursively. -/
inductive CountRel : Node → Nat → Prop where
  | file : ∀ e, CountRel (.file e) 0
  | dir : ∀ e listOk children childCounts bucketCounts,
      childCounts.length = children.length →
      (∀ p ∈ children.zip childCounts, isDirNotSymlink p.1 = true →
        CountRel p.1 p.2) →
      (∀ p ∈ children.zip childCounts, isDirNotSymlink p.1 = false →
        p.2 = 0) →
      bucketCounts.length =
        (collectBuckets (sortByCreated (filesOf children))).length →
      (∀ q ∈ (collectBuckets (sortByCreated (filesOf children))).zip
          bucketCounts,
        ∃ p, p.Perm q.1.2 ∧
          q.2 = (if 1 < p.length then countDups dig [] p else 0)) →
      CountRel (.dir e listOk children) (childCounts.sum + bucketCounts.sum)

end Sched

/-! Helper lemmas about the key lookup, the bucket map, and the sort. -/

section KeyLemmas

variable {α : Type} [DecidableEq α]

theorem keys_find?_none {h : List (α × Entry)} {d : α}
    (hn : d ∉ h.map Prod.fst) : h.find? (fun p => p.1 = d) = none := by
  rw [List.find?_eq_none]
  intro x hx
  simp only [decide_eq_true_eq]
  intro hxd
  exact hn (List.mem_map.mpr ⟨x, hx, hxd⟩)

theorem keys_find?_some {h : List (α × Entry)} {d : α}
    (hn : d ∈ h.map Prod.fst) : ∃ p, h.find? (fun p => p.1 = d) = some p := by
  cases hf : h.find? (fun p => p.1 = d) with
  | some p => exact ⟨p, rfl⟩
  | none =>
    rw [List.find?_eq_none] at hf
    obtain ⟨x, hx, hxd⟩ := List.mem_map.mp hn
    exact absurd (by simpa using hxd) (by simpa using hf x hx)

theorem find?_key_mem {h : List (α × Entry)} {d : α} {p : α × Entry}
    (hf : h.find? (fun q => q.1 = d) = some p) : p ∈ h ∧ p.1 = d := by
  refine ⟨List.mem_of_find?_eq_some hf, ?_⟩
  have := List.find?_some hf
  simpa using this

end KeyLemmas

section BucketLemmas

theorem bucketAt_pushBucket_same (m : List (Nat × List Entry)) (k : Nat)
    (e : Entry) : bucketAt (pushBucket m k e) k = bucketAt m k ++ [e] := by
  induction m with
  | nil => simp [pushBucket, bucketAt]
  | cons kb rest ih =>
    obtain ⟨k2, v⟩ := kb
    by_cases hk : k2 = k
    · subst hk
      simp [pushBucket, bucketAt]
    · simp [pushBucket, bucketAt, hk, ih]

theorem bucketAt_pushBucket_ne (m : List (Nat × List Entry)) {k k2 : Nat}
    (e : Entry) (hne : k2 ≠ k) :
    bucketAt (pushBucket m k e) k2 = bucketAt m k2 := by
  induction m with
  | nil =>
    have h1 : ¬ k = k2 := fun h => hne h.symm
    simp [pushBucket, bucketAt, h1]
  | cons kb rest ih =>
    obtain ⟨k3, v⟩ := kb
    by_cases hk : k3 = k
    · subst hk
      have h3 : ¬ k3 = k2 := fun h => hne h.symm
      simp [pushBucket, bucketAt, h3]
    · simp [pushBucket, bucketAt, hk, ih]

theorem keys_pushBucket (m : List (Nat × List Entry)) (k : Nat) (e : Entry) :
    (pushBucket m k e).map Prod.fst =
      (if k ∈ m.map Prod.fst then m.map Prod.fst
       else m.map Prod.fst ++ [k]) := by
  induction m with
  | nil => simp [pushBucket]
  | cons kb rest ih =>
    obtain ⟨k2, v⟩ := kb
    by_cases hk : k2 = k
    · subst hk
      simp [pushBucket]
    · have hne : ¬ k = k2 := fun h => hk h.symm
      by_cases hmem : k ∈ rest.map Prod.fst
      · simp [pushBucket, hk, ih, hmem, hne]
      · simp [pushBucket, hk, ih, hmem, hne]

theorem keys_nodup_pushBucket {m : List (Nat × List Entry)} {k : Nat}
    {e : Entry} (hnd : (m.map Prod.fst).Nodup) :
    ((pushBucket m k e).map Prod.fst).Nodup := by
  rw [keys_pushBucket]
  by_cases hmem : k ∈ m.map Prod.fst
  · simpa [hmem] using hnd
  · simp only [hmem, if_false]
    rw [← List.concat_eq_append]
    exact List.Nodup.concat hmem hnd

theorem bucketAt_foldl (l : List Entry) :
    ∀ (m : List (Nat × List Entry)) (k : Nat),
      bucketAt (l.foldl (fun m e => pushBucket m e.len e) m) k =
        bucketAt m k ++ l.filter (fun e => e.len = k) := by
  induction l with
  | nil => intro m k; simp
  | cons e t ih =>
    intro m k
    by_cases hk : e.len = k
    · subst hk
      simp only [List.foldl_cons, ih, bucketAt_pushBucket_same]
      rw [List.append_assoc]
      simp [List.filter_cons]
    · have hne : k ≠ e.len := fun h => hk h.symm
      simp [List.foldl_cons, ih, List.filter_cons, hk,
        bucketAt_pushBucket_ne _ _ hne]

theorem collectBuckets_at (l : List Entry) (k : Nat) :
    bucketAt (collectBuckets l) k = l.filter (fun e => e.len = k) := by
  simpa [bucketAt] using bucketAt_foldl l [] k

theorem collectBuckets_keys_nodup (l : List Entry) :
    ((collectBuckets l).map Prod.fst).Nodup := by
  have main : ∀ (m : List (Nat × List Entry)), (m.map Prod.fst).Nodup →
      (((l.foldl (fun m e => pushBucket m e.len e) m)).map Prod.fst).Nodup := by
    induction l with
    | nil => intro m hm; simpa using hm
    | cons e t ih =>
      intro m hm
      exact ih _ (keys_nodup_pushBucket hm)
  simpa [collectBuckets] using main [] (by simp)

theorem bucketAt_of_mem {m : List (Nat × List Entry)} {k : Nat}
    {b : List Entry} (hnd : (m.map Prod.fst).Nodup) (hm : (k, b) ∈ m) :
    bucketAt m k = b := by
  induction m with
  | nil => cases hm
  | cons kb rest ih =>
    obtain ⟨k2, v⟩ := kb
    simp only [List.map_cons, List.nodup_cons] at hnd
    rcases List.mem_cons.mp hm with hh | ht
    · obtain ⟨h1, h2⟩ := Prod.mk.injEq k2 v k b ▸ hh.symm
      simp [bucketAt, h1, h2]
    · have hk2 : k2 ≠ k := by
        intro h
        subst h
        exact hnd.1 (List.mem_map.mpr ⟨(k2, b), ht, rfl⟩)
      simp only [bucketAt, hk2, if_false]
      exact ih hnd.2 ht

theorem mem_collectBuckets_eq {l : List Entry} {k : Nat} {b : List Entry}
    (hm : (k, b) ∈ collectBuckets l) :
    b = l.filter (fun e => e.len = k) := by
  rw [← collectBuckets_at, bucketAt_of_mem (collectBuckets_keys_nodup l) hm]

theorem mem_of_mem_collectBuckets {l : List Entry} {k : Nat} {b : List Entry}
    {e : Entry} (hm : (k, b) ∈ collectBuckets l) (he : e ∈ b) : e ∈ l := by
  rw [mem_collectBuckets_eq hm] at he
  exact List.mem_of_mem_filter he

end BucketLemmas

section SortLemmas

theorem insertByCreated_perm (e : Entry) (l : List Entry) :
    (insertByCreated e l).Perm (e :: l) := by
  induction l with
  | nil => simp [insertByCreated]
  | cons x rest ih =>
    by_cases hle : e.created ≤ x.created
    · simp [insertByCreated, hle]
    · simp only [insertByCreated, hle, if_false]
      exact (ih.cons x).trans (List.Perm.swap e x rest)

theorem sortByCreated_perm (l : List Entry) : (sortByCreated l).Perm l := by
  induction l with
  | nil => simp [sortByCreated]
  | cons e t ih =>
    have : sortByCreated (e :: t) = insertByCreated e (sortByCreated t) := rfl
    rw [this]
    exact (insertByCreated_perm e (sortByCreated t)).trans (ih.cons e)

end SortLemmas

/-! Characterization of the resolver loop by the pure functions
traceOf, hashesOf and countDups. -/

section RunBucketLemmas

variable {α : Type} [DecidableEq α] {dig : List Byte → α}

theorem traceOf_cons (o : Opt) (unix : Bool) (h : List (α × Entry))
    (e : Entry) (rest : List Entry) :
    traceOf dig o unix h (e :: rest) =
      traceOf dig o unix h [e] ++
      traceOf dig o unix (hashesOf dig h [e]) rest := by
  cases hfind : h.find? (fun p => p.1 = dig e.content) with
  | none => simp [traceOf, hashesOf, hfind]
  | some p => simp [traceOf, hashesOf, hfind]

theorem hashesOf_cons (h : List (α × Entry)) (e : Entry) (rest : List Entry) :
    hashesOf dig h (e :: rest) = hashesOf dig (hashesOf dig h [e]) rest := by
  cases hfind : h.find? (fun p => p.1 = dig e.content) with
  | none => simp [hashesOf, hfind]
  | some p => simp [hashesOf, hfind]

theorem countDups_cons (h : List (α × Entry)) (e : Entry) (rest : List Entry) :
    countDups dig h (e :: rest) =
      countDups dig h [e] + countDups dig (hashesOf dig h [e]) rest := by
  cases hfind : h.find? (fun p => p.1 = dig e.content) with
  | none => simp [countDups, hashesOf, hfind]
  | some p =>
    simp [countDups, hashesOf, hfind]
    omega

theorem stepEntry_ok_char {o : Opt} {unix : Bool} {h : List (α × Entry)}
    {g : GState} {e : Entry} {h2 : List (α × Entry)} {g2 : GState}
    (hr : stepEntry dig o unix h g e = .ok (h2, g2)) :
    h2 = hashesOf dig h [e] ∧
    g2.trace = g.trace ++ traceOf dig o unix h [e] ∧
    g2.count = g.count + countDups dig h [e] := by
  by_cases hre : e.readOk = false
  · simp [stepEntry, hre] at hr
  cases hfind : h.find? (fun p => p.1 = dig e.content) with
  | none =>
    simp [stepEntry, hre, hfind] at hr
    obtain ⟨hh, hg⟩ := hr
    subst hh hg
    simp [hashesOf, traceOf, countDups, hfind]
  | some p =>
    by_cases hdry : o.dry = false
    · by_cases hrm : e.removeOk = false
      · simp [stepEntry, hre, hfind, hdry, hrm] at hr
      · by_cases hls : (unix && o.symlink) = true
        · by_cases hlk : e.linkOk = false
          · simp [stepEntry, hre, hfind, hdry, hrm, hls, hlk] at hr
          · simp [stepEntry, hre, hfind, hdry, hrm, hls, hlk] at hr
            obtain ⟨hh, hg⟩ := hr
            subst hh hg
            simp [hashesOf, traceOf, countDups, hfind, hdry, hls]
        · simp [stepEntry, hre, hfind, hdry, hrm, hls] at hr
          simp only [Bool.not_eq_true] at hls
          obtain ⟨hh, hg⟩ := hr
          subst hh hg
          simp [hashesOf, traceOf, countDups, hfind, hdry, hls]
    · simp [stepEntry, hre, hfind, hdry] at hr
      obtain ⟨hh, hg⟩ := hr
      subst hh hg
      simp [hashesOf, traceOf, countDups, hfind, hdry]

theorem stepEntry_ok_of_opOk {o : Opt} {unix : Bool} (h : List (α × Entry))
    (g : GState) {e : Entry} (hok : entryOpOk o unix e = true) :
    ∃ h2 g2, stepEntry dig o unix h g e = .ok (h2, g2) := by
  simp only [entryOpOk, Bool.and_eq_true, Bool.or_eq_true] at hok
  obtain ⟨hre, hact⟩ := hok
  have hre2 : ¬ (e.readOk = false) := by simp [hre]
  cases hfind : h.find? (fun p => p.1 = dig e.content) with
  | none =>
    refine ⟨h ++ [(dig e.content, e)], ?_, ?_⟩
    · exact ⟨g.trace ++ [.hashed e.name] ++ [.insertedCanonical e.name], g.count⟩
    · simp [stepEntry, hre2, hfind]
  | some p =>
    by_cases hdry : o.dry = false
    · rcases hact with hd | ⟨hrm, hlk⟩
      · simp [hd] at hdry
      · have hrm2 : ¬ (e.removeOk = false) := by simp [hrm]
        by_cases hls : (unix && o.symlink) = true
        · rcases hlk with hls2 | hlk2
          · rw [hls] at hls2; simp at hls2
          · have hlk3 : ¬ (e.linkOk = false) := by simp [hlk2]
            refine ⟨h, ?_, ?_⟩
            · exact ⟨g.trace ++ [.hashed e.name] ++ [.dupFound e.name p.2.name]
                ++ [.removed e.name] ++ [.linked e.name p.2.name p.2.content],
                g.count + 1⟩
            · simp [stepEntry, hre2, hfind, hdry, hrm2, hls, hlk3]
        · refine ⟨h, ?_, ?_⟩
          · exact ⟨g.trace ++ [.hashed e.name] ++ [.dupFound e.name p.2.name]
              ++ [.removed e.name], g.count + 1⟩
          · simp [stepEntry, hre2, hfind, hdry, hrm2, hls]
    · refine ⟨h, ?_, ?_⟩
      · exact ⟨g.trace ++ [.hashed e.name] ++ [.dupFound e.name p.2.name]
          ++ [.reported e.name], g.count + 1⟩
      · simp [stepEntry, hre2, hfind, hdry]

theorem runBucket_ok_char {o : Opt} {unix : Bool} :
    ∀ (l : List Entry) (h : List (α × Entry)) (g : GState)
      (h2 : List (α × Entry)) (g2 : GState),
      runBucket dig o unix h g l = .ok (h2, g2) →
      h2 = hashesOf dig h l ∧
      g2.trace = g.trace ++ traceOf dig o unix h l ∧
      g2.count = g.count + countDups dig h l := by
  intro l
  induction l with
  | nil =>
    intro h g h2 g2 hr
    simp only [runBucket, Except.ok.injEq, Prod.mk.injEq] at hr
    obtain ⟨hh, hg⟩ := hr
    subst hh hg
    simp [hashesOf, traceOf, countDups]
  | cons e rest ih =>
    intro h g h2 g2 hr
    simp only [runBucket] at hr
    cases hstep : stepEntry dig o unix h g e with
    | error err => rw [hstep] at hr; cases hr
    | ok pr =>
      obtain ⟨hm, gm⟩ := pr
      rw [hstep] at hr
      obtain ⟨hh, htr, hc⟩ := stepEntry_ok_char hstep
      obtain ⟨ih1, ih2, ih3⟩ := ih hm gm h2 g2 hr
      subst hh
      refine ⟨?_, ?_, ?_⟩
      · rw [ih1, ← hashesOf_cons h e rest]
      · rw [ih2, htr, List.append_assoc, traceOf_cons o unix h e rest]
      · rw [ih3, hc, countDups_cons h e rest]
        omega

theorem runBucket_ok_of_opOk {o : Opt} {unix : Bool} :
    ∀ (l : List Entry) (h : List (α × Entry)) (g : GState),
      (∀ e ∈ l, entryOpOk o unix e = true) →
      ∃ h2 g2, runBucket dig o unix h g l = .ok (h2, g2) := by
  intro l
  induction l with
  | nil => intro h g _; exact ⟨h, g, rfl⟩
  | cons e rest ih =>
    intro h g hok
    obtain ⟨hm, gm, hstep⟩ :=
      stepEntry_ok_of_opOk h g (hok e (List.mem_cons_self e rest))
    obtain ⟨h2, g2, hr⟩ := ih hm gm (fun x hx => hok x (List.mem_cons_of_mem e hx))
    refine ⟨h2, g2, ?_⟩
    simp only [runBucket]
    rw [hstep]
    exact hr

theorem runBucket_append {o : Opt} {unix : Bool} :
    ∀ (l1 l2 : List Entry) (h : List (α × Entry)) (g : GState),
      runBucket dig o unix h g (l1 ++ l2) =
        match runBucket dig o unix h g l1 with
        | .error err => .error err
        | .ok (h2, g2) => runBucket dig o unix h2 g2 l2 := by
  intro l1
  induction l1 with
  | nil => intro l2 h g; simp [runBucket]
  | cons e rest ih =>
    intro l2 h g
    simp only [List.cons_append, runBucket]
    cases hstep : stepEntry dig o unix h g e with
    | error err => rfl
    | ok pr => obtain ⟨hm, gm⟩ := pr; exact ih l2 hm gm

theorem runBuckets_ok_char {o : Opt} {unix : Bool} :
    ∀ (m : List (Nat × List Entry)) (g : GState) (g2 : GState),
      runBuckets dig o unix g m = .ok g2 →
      g2.trace = g.trace ++ tracesOf dig o unix m ∧
      g2.count = g.count + bucketsCount dig m := by
  intro m
  induction m with
  | nil =>
    intro g g2 hr
    simp only [runBuckets, Except.ok.injEq] at hr
    subst hr
    simp [tracesOf, bucketsCount]
  | cons kb rest ih =>
    intro g g2 hr
    obtain ⟨k, b⟩ := kb
    by_cases hlen : 1 < b.length
    · simp only [runBuckets, hlen, if_true] at hr
      cases hb : runBucket dig o unix [] g b with
      | error err => rw [hb] at hr; cases hr
      | ok pr =>
        obtain ⟨hm, gm⟩ := pr
        rw [hb] at hr
        obtain ⟨_, htr, hc⟩ := runBucket_ok_char b [] g hm gm hb
        obtain ⟨ih1, ih2⟩ := ih gm g2 hr
        constructor
        · rw [ih1, htr, List.append_assoc]
          simp [tracesOf, hlen]
        · rw [ih2, hc]
          simp only [bucketsCount, List.map_cons, List.sum_cons]
          rw [if_pos hlen]
          simp only [bucketsCount] at *
          omega
    · simp only [runBuckets, hlen, if_false] at hr
      obtain ⟨ih1, ih2⟩ := ih g g2 hr
      constructor
      · rw [ih1]
        simp [tracesOf, hlen]
      · rw [ih2]
        simp only [bucketsCount, List.map_cons, List.sum_cons]
        rw [if_neg hlen]
        omega

theorem runBuckets_ok_of_opOk {o : Opt} {unix : Bool} :
    ∀ (m : List (Nat × List Entry)) (g : GState),
      (∀ kb ∈ m, 1 < (kb.2 : List Entry).length →
        ∀ e ∈ kb.2, entryOpOk o unix e = true) →
      ∃ g2, runBuckets dig o unix g m = .ok g2 := by
  intro m
  induction m with
  | nil => intro g _; exact ⟨g, rfl⟩
  | cons kb rest ih =>
    intro g hok
    obtain ⟨k, b⟩ := kb
    by_cases hlen : 1 < b.length
    · obtain ⟨hm, gm, hb⟩ := @runBucket_ok_of_opOk _ _ dig o unix b [] g
        (hok (k, b) (List.mem_cons_self _ _) hlen)
      obtain ⟨g2, hrest⟩ := ih gm
        (fun x hx => hok x (List.mem_cons_of_mem _ hx))
      exact ⟨g2, by simp only [runBuckets, hlen, if_true, hb]; exact hrest⟩
    · obtain ⟨g2, hrest⟩ := ih g
        (fun x hx => hok x (List.mem_cons_of_mem _ hx))
      exact ⟨g2, by simp only [runBuckets, hlen, if_false]; exact hrest⟩

end RunBucketLemmas

/-! Soundness lemmas about the pure trace of the resolver. -/

section TraceLemmas

variable {α : Type} [DecidableEq α] {dig : List Byte → α} {o : Opt} {unix : Bool}

theorem mem_traceOf_cons_dup {h : List (α × Entry)} {e : Entry}
    {rest : List Entry} {p : α × Entry}
    (hfind : h.find? (fun q => q.1 = dig e.content) = some p) {ev : Event} :
    ev ∈ traceOf dig o unix h (e :: rest) ↔
      (ev = .hashed e.name ∨ ev = .dupFound e.name p.2.name ∨
       (o.dry = false ∧ ev = .removed e.name) ∨
       (o.dry = false ∧ (unix && o.symlink) = true ∧
         ev = .linked e.name p.2.name p.2.content) ∨
       (o.dry = true ∧ ev = .reported e.name) ∨
       ev ∈ traceOf dig o unix h rest) := by
  cases hdry : o.dry with
  | false =>
    cases hls : unix && o.symlink with
    | false => simp [traceOf, hfind, hdry, hls]; try tauto
    | true => simp [traceOf, hfind, hdry, hls]; try tauto
  | true => simp [traceOf, hfind, hdry]; try tauto

theorem mem_traceOf_cons_new {h : List (α × Entry)} {e : Entry}
    {rest : List Entry}
    (hfind : h.find? (fun q => q.1 = dig e.content) = none) {ev : Event} :
    ev ∈ traceOf dig o unix h (e :: rest) ↔
      (ev = .hashed e.name ∨ ev = .insertedCanonical e.name ∨
       ev ∈ traceOf dig o unix (h ++ [(dig e.content, e)]) rest) := by
  simp [traceOf, hfind]

theorem traceOf_name_mem :
    ∀ (l : List Entry) (h : List (α × Entry)) (ev : Event),
      ev ∈ traceOf dig o unix h l → ∃ e ∈ l, evName ev = e.name := by
  intro l
  induction l with
  | nil => intro h ev hev; simp [traceOf] at hev
  | cons e rest ih =>
    intro h ev hev
    cases hfind : h.find? (fun q => q.1 = dig e.content) with
    | some p =>
      rcases (mem_traceOf_cons_dup hfind).mp hev with
        rfl | rfl | ⟨_, rfl⟩ | ⟨_, _, rfl⟩ | ⟨_, rfl⟩ | hrest
      · exact ⟨e, List.mem_cons_self e rest, rfl⟩
      · exact ⟨e, List.mem_cons_self e rest, rfl⟩
      · exact ⟨e, List.mem_cons_self e rest, rfl⟩
      · exact ⟨e, List.mem_cons_self e rest, rfl⟩
      · exact ⟨e, List.mem_cons_self e rest, rfl⟩
      · obtain ⟨x, hx, hn⟩ := ih h ev hrest
        exact ⟨x, List.mem_cons_of_mem e hx, hn⟩
    | none =>
      rcases (mem_traceOf_cons_new hfind).mp hev with rfl | rfl | hrest
      · exact ⟨e, List.mem_cons_self e rest, rfl⟩
      · exact ⟨e, List.mem_cons_self e rest, rfl⟩
      · obtain ⟨x, hx, hn⟩ := ih _ ev hrest
        exact ⟨x, List.mem_cons_of_mem e hx, hn⟩

theorem traceOf_dry_no_removed (hdry : o.dry = true) :
    ∀ (l : List Entry) (h : List (α × Entry)) (n : Nat),
      (Event.removed n) ∉ traceOf dig o unix h l := by
  intro l
  induction l with
  | nil => intro h n hev; simp [traceOf] at hev
  | cons e rest ih =>
    intro h n hev
    cases hfind : h.find? (fun q => q.1 = dig e.content) with
    | some p =>
      rcases (mem_traceOf_cons_dup hfind).mp hev with
        hev | hev | ⟨hd, _⟩ | ⟨hd, _, _⟩ | ⟨_, hev⟩ | hrest
      · cases hev
      · cases hev
      · rw [hdry] at hd; cases hd
      · rw [hdry] at hd; cases hd
      · cases hev
      · exact ih h n hrest
    | none =>
      rcases (mem_traceOf_cons_new hfind).mp hev with hev | hev | hrest
      · cases hev
      · cases hev
      · exact ih _ n hrest

theorem traceOf_dry_no_linked (hdry : o.dry = true) :
    ∀ (l : List Entry) (h : List (α × Entry)) (n t : Nat) (tc : List Byte),
      (Event.linked n t tc) ∉ traceOf dig o unix h l := by
  intro l
  induction l with
  | nil => intro h n t tc hev; simp [traceOf] at hev
  | cons e rest ih =>
    intro h n t tc hev
    cases hfind : h.find? (fun q => q.1 = dig e.content) with
    | some p =>
      rcases (mem_traceOf_cons_dup hfind).mp hev with
        hev | hev | ⟨hd, hev⟩ | ⟨hd, _, _⟩ | ⟨_, hev⟩ | hrest
      · cases hev
      · cases hev
      · cases hev
      · rw [hdry] at hd; cases hd
      · cases hev
      · exact ih h n t tc hrest
    | none =>
      rcases (mem_traceOf_cons_new hfind).mp hev with hev | hev | hrest
      · cases hev
      · cases hev
      · exact ih _ n t tc hrest

theorem traceOf_nounix_no_linked (hls : (unix && o.symlink) = false) :
    ∀ (l : List Entry) (h : List (α × Entry)) (n t : Nat) (tc : List Byte),
      (Event.linked n t tc) ∉ traceOf dig o unix h l := by
  intro l
  induction l with
  | nil => intro h n t tc hev; simp [traceOf] at hev
  | cons e rest ih =>
    intro h n t tc hev
    cases hfind : h.find? (fun q => q.1 = dig e.content) with
    | some p =>
      rcases (mem_traceOf_cons_dup hfind).mp hev with
        hev | hev | ⟨_, hev⟩ | ⟨_, hl2, _⟩ | ⟨_, hev⟩ | hrest
      · cases hev
      · cases hev
      · cases hev
      · rw [hls] at hl2; cases hl2
      · cases hev
      · exact ih h n t tc hrest
    | none =>
      rcases (mem_traceOf_cons_new hfind).mp hev with hev | hev | hrest
      · cases hev
      · cases hev
      · exact ih _ n t tc hrest

theorem traceOf_dup_companions (hdry : o.dry = false) :
    ∀ (l : List Entry) (h : List (α × Entry)) (n t : Nat),
      (Event.dupFound n t) ∈ traceOf dig o unix h l →
      (Event.removed n) ∈ traceOf dig o unix h l ∧
      ((unix && o.symlink) = true →
        ∃ tc, (Event.linked n t tc) ∈ traceOf dig o unix h l) := by
  intro l
  induction l with
  | nil => intro h n t hev; simp [traceOf] at hev
  | cons e rest ih =>
    intro h n t hev
    cases hfind : h.find? (fun q => q.1 = dig e.content) with
    | some p =>
      rcases (mem_traceOf_cons_dup hfind).mp hev with
        hev | hev | ⟨_, hev⟩ | ⟨_, _, hev⟩ | ⟨hd, hev⟩ | hrest
      · cases hev
      · cases hev
        constructor
        · exact (mem_traceOf_cons_dup hfind).mpr (Or.inr (Or.inr (Or.inl ⟨hdry, rfl⟩)))
        · intro hls
          exact ⟨p.2.content, (mem_traceOf_cons_dup hfind).mpr
            (Or.inr (Or.inr (Or.inr (Or.inl ⟨hdry, hls, rfl⟩))))⟩
      · cases hev
      · cases hev
      · rw [hdry] at hd; cases hd
      · obtain ⟨h1, h2⟩ := ih h n t hrest
        constructor
        · exact (mem_traceOf_cons_dup hfind).mpr (Or.inr (Or.inr (Or.inr (Or.inr (Or.inr h1)))))
        · intro hls
          obtain ⟨tc, htc⟩ := h2 hls
          exact ⟨tc, (mem_traceOf_cons_dup hfind).mpr
            (Or.inr (Or.inr (Or.inr (Or.inr (Or.inr htc)))))⟩
    | none =>
      rcases (mem_traceOf_cons_new hfind).mp hev with hev | hev | hrest
      · cases hev
      · cases hev
      · obtain ⟨h1, h2⟩ := ih _ n t hrest
        constructor
        · exact (mem_traceOf_cons_new hfind).mpr (Or.inr (Or.inr h1))
        · intro hls
          obtain ⟨tc, htc⟩ := h2 hls
          exact ⟨tc, (mem_traceOf_cons_new hfind).mpr (Or.inr (Or.inr htc))⟩


theorem traceOf_dup_target_sound :
    ∀ (l : List Entry) (h : List (α × Entry)),
      (∀ p ∈ h, p.1 = dig p.2.content) →
      ∀ (n t : Nat),
        (Event.dupFound n t) ∈ traceOf dig o unix h l →
        ∃ l1 e l2 c, l = l1 ++ e :: l2 ∧ e.name = n ∧ c.name = t ∧
          dig c.content = dig e.content ∧
          ((dig e.content, c) ∈ h ∨
            (c ∈ l1 ∧
              (Event.insertedCanonical c.name) ∈ traceOf dig o unix h l)) := by
  intro l
  induction l with
  | nil => intro h _ n t hev; simp [traceOf] at hev
  | cons e rest ih =>
    intro h hinv n t hev
    cases hfind : h.find? (fun q => q.1 = dig e.content) with
    | some p =>
      rcases (mem_traceOf_cons_dup hfind).mp hev with
        hev | hev | ⟨_, hev⟩ | ⟨_, _, hev⟩ | ⟨_, hev⟩ | hrest
      · cases hev
      · cases hev
        obtain ⟨hp, hp1⟩ := find?_key_mem hfind
        refine ⟨[], e, rest, p.2, by simp, rfl, rfl, ?_, Or.inl ?_⟩
        · rw [← hinv p hp, hp1]
        · rw [← hp1]
          simpa using hp
      · cases hev
      · cases hev
      · cases hev
      · obtain ⟨l1, x, l2, c, hsplit, hn, ht, hdig, hc⟩ := ih h hinv n t hrest
        refine ⟨e :: l1, x, l2, c, by rw [hsplit]; rfl, hn, ht, hdig, ?_⟩
        rcases hc with hc | ⟨hc1, hc2⟩
        · exact Or.inl hc
        · exact Or.inr ⟨List.mem_cons_of_mem e hc1,
            (mem_traceOf_cons_dup hfind).mpr
              (Or.inr (Or.inr (Or.inr (Or.inr (Or.inr hc2)))))⟩
    | none =>
      rcases (mem_traceOf_cons_new hfind).mp hev with hev | hev | hrest
      · cases hev
      · cases hev
      · have hinv2 : ∀ p ∈ h ++ [(dig e.content, e)], p.1 = dig p.2.content := by
          intro p hp
          rcases List.mem_append.mp hp with hp | hp
          · exact hinv p hp
          · simp at hp
            rw [hp]
        obtain ⟨l1, x, l2, c, hsplit, hn, ht, hdig, hc⟩ := ih _ hinv2 n t hrest
        refine ⟨e :: l1, x, l2, c, by rw [hsplit]; rfl, hn, ht, hdig, ?_⟩
        rcases hc with hc | ⟨hc1, hc2⟩
        · rcases List.mem_append.mp hc with hc | hc
          · exact Or.inl hc
          · simp at hc
            refine Or.inr ⟨by rw [hc.2]; exact List.mem_cons_self e l1, ?_⟩
            rw [hc.2]
            exact (mem_traceOf_cons_new hfind).mpr (Or.inr (Or.inl rfl))
        · exact Or.inr ⟨List.mem_cons_of_mem e hc1,
            (mem_traceOf_cons_new hfind).mpr (Or.inr (Or.inr hc2))⟩

theorem traceOf_linked_target_sound :
    ∀ (l : List Entry) (h : List (α × Entry)),
      (∀ p ∈ h, p.1 = dig p.2.content) →
      ∀ (n t : Nat) (tc : List Byte),
        (Event.linked n t tc) ∈ traceOf dig o unix h l →
        ∃ l1 e l2 c, l = l1 ++ e :: l2 ∧ e.name = n ∧ c.name = t ∧
          tc = c.content ∧ dig c.content = dig e.content ∧
          ((dig e.content, c) ∈ h ∨
            (c ∈ l1 ∧
              (Event.insertedCanonical c.name) ∈ traceOf dig o unix h l)) := by
  intro l
  induction l with
  | nil => intro h _ n t tc hev; simp [traceOf] at hev
  | cons e rest ih =>
    intro h hinv n t tc hev
    cases hfind : h.find? (fun q => q.1 = dig e.content) with
    | some p =>
      rcases (mem_traceOf_cons_dup hfind).mp hev with
        hev | hev | ⟨_, hev⟩ | ⟨_, _, hev⟩ | ⟨_, hev⟩ | hrest
      · cases hev
      · cases hev
      · cases hev
      · cases hev
        obtain ⟨hp, hp1⟩ := find?_key_mem hfind
        refine ⟨[], e, rest, p.2, by simp, rfl, rfl, rfl, ?_, Or.inl ?_⟩
        · rw [← hinv p hp, hp1]
        · rw [← hp1]
          simpa using hp
      · cases hev
      · obtain ⟨l1, x, l2, c, hsplit, hn, ht, htc, hdig, hc⟩ := ih h hinv n t tc hrest
        refine ⟨e :: l1, x, l2, c, by rw [hsplit]; rfl, hn, ht, htc, hdig, ?_⟩
        rcases hc with hc | ⟨hc1, hc2⟩
        · exact Or.inl hc
        · exact Or.inr ⟨List.mem_cons_of_mem e hc1,
            (mem_traceOf_cons_dup hfind).mpr
              (Or.inr (Or.inr (Or.inr (Or.inr (Or.inr hc2)))))⟩
    | none =>
      rcases (mem_traceOf_cons_new hfind).mp hev with hev | hev | hrest
      · cases hev
      · cases hev
      · have hinv2 : ∀ p ∈ h ++ [(dig e.content, e)], p.1 = dig p.2.content := by
          intro p hp
          rcases List.mem_append.mp hp with hp | hp
          · exact hinv p hp
          · simp at hp
            rw [hp]
        obtain ⟨l1, x, l2, c, hsplit, hn, ht, htc, hdig, hc⟩ := ih _ hinv2 n t tc hrest
        refine ⟨e :: l1, x, l2, c, by rw [hsplit]; rfl, hn, ht, htc, hdig, ?_⟩
        rcases hc with hc | ⟨hc1, hc2⟩
        · rcases List.mem_append.mp hc with hc | hc
          · exact Or.inl hc
          · simp at hc
            refine Or.inr ⟨by rw [hc.2]; exact List.mem_cons_self e l1, ?_⟩
            rw [hc.2]
            exact (mem_traceOf_cons_new hfind).mpr (Or.inr (Or.inl rfl))
        · exact Or.inr ⟨List.mem_cons_of_mem e hc1,
            (mem_traceOf_cons_new hfind).mpr (Or.inr (Or.inr hc2))⟩

theorem traceOf_removed_is_dup :
    ∀ (l : List Entry) (h : List (α × Entry)) (n : Nat),
      (Event.removed n) ∈ traceOf dig o unix h l →
      ∃ t, (Event.dupFound n t) ∈ traceOf dig o unix h l := by
  intro l
  induction l with
  | nil => intro h n hev; simp [traceOf] at hev
  | cons e rest ih =>
    intro h n hev
    cases hfind : h.find? (fun q => q.1 = dig e.content) with
    | some p =>
      rcases (mem_traceOf_cons_dup hfind).mp hev with
        hev | hev | ⟨_, hev⟩ | ⟨_, _, hev⟩ | ⟨_, hev⟩ | hrest
      · cases hev
      · cases hev
      · cases hev
        exact ⟨p.2.name, (mem_traceOf_cons_dup hfind).mpr (Or.inr (Or.inl rfl))⟩
      · cases hev
      · cases hev
      · obtain ⟨t, ht⟩ := ih h n hrest
        exact ⟨t, (mem_traceOf_cons_dup hfind).mpr
          (Or.inr (Or.inr (Or.inr (Or.inr (Or.inr ht)))))⟩
    | none =>
      rcases (mem_traceOf_cons_new hfind).mp hev with hev | hev | hrest
      · cases hev
      · cases hev
      · obtain ⟨t, ht⟩ := ih _ n hrest
        exact ⟨t, (mem_traceOf_cons_new hfind).mpr (Or.inr (Or.inr ht))⟩

theorem traceOf_reported_is_dup :
    ∀ (l : List Entry) (h : List (α × Entry)) (n : Nat),
      (Event.reported n) ∈ traceOf dig o unix h l →
      ∃ t, (Event.dupFound n t) ∈ traceOf dig o unix h l := by
  intro l
  induction l with
  | nil => intro h n hev; simp [traceOf] at hev
  | cons e rest ih =>
    intro h n hev
    cases hfind : h.find? (fun q => q.1 = dig e.content) with
    | some p =>
      rcases (mem_traceOf_cons_dup hfind).mp hev with
        hev | hev | ⟨_, hev⟩ | ⟨_, _, hev⟩ | ⟨_, hev⟩ | hrest
      · cases hev
      · cases hev
      · cases hev
      · cases hev
      · cases hev
        exact ⟨p.2.name, (mem_traceOf_cons_dup hfind).mpr (Or.inr (Or.inl rfl))⟩
      · obtain ⟨t, ht⟩ := ih h n hrest
        exact ⟨t, (mem_traceOf_cons_dup hfind).mpr
          (Or.inr (Or.inr (Or.inr (Or.inr (Or.inr ht)))))⟩
    | none =>
      rcases (mem_traceOf_cons_new hfind).mp hev with hev | hev | hrest
      · cases hev
      · cases hev
      · obtain ⟨t, ht⟩ := ih _ n hrest
        exact ⟨t, (mem_traceOf_cons_new hfind).mpr (Or.inr (Or.inr ht))⟩

theorem traceOf_linked_is_dup :
    ∀ (l : List Entry) (h : List (α × Entry)) (n t : Nat) (tc : List Byte),
      (Event.linked n t tc) ∈ traceOf dig o unix h l →
      (Event.dupFound n t) ∈ traceOf dig o unix h l ∧
      (Event.removed n) ∈ traceOf dig o unix h l := by
  intro l
  induction l with
  | nil => intro h n t tc hev; simp [traceOf] at hev
  | cons e rest ih =>
    intro h n t tc hev
    cases hfind : h.find? (fun q => q.1 = dig e.content) with
    | some p =>
      rcases (mem_traceOf_cons_dup hfind).mp hev with
        hev | hev | ⟨_, hev⟩ | ⟨hd, _, hev⟩ | ⟨_, hev⟩ | hrest
      · cases hev
      · cases hev
      · cases hev
      · cases hev
        exact ⟨(mem_traceOf_cons_dup hfind).mpr (Or.inr (Or.inl rfl)),
          (mem_traceOf_cons_dup hfind).mpr (Or.inr (Or.inr (Or.inl ⟨hd, rfl⟩)))⟩
      · cases hev
      · obtain ⟨h1, h2⟩ := ih h n t tc hrest
        exact ⟨(mem_traceOf_cons_dup hfind).mpr
          (Or.inr (Or.inr (Or.inr (Or.inr (Or.inr h1))))),
          (mem_traceOf_cons_dup hfind).mpr
          (Or.inr (Or.inr (Or.inr (Or.inr (Or.inr h2)))))⟩
    | none =>
      rcases (mem_traceOf_cons_new hfind).mp hev with hev | hev | hrest
      · cases hev
      · cases hev
      · obtain ⟨h1, h2⟩ := ih _ n t tc hrest
        exact ⟨(mem_traceOf_cons_new hfind).mpr (Or.inr (Or.inr h1)),
          (mem_traceOf_cons_new hfind).mpr (Or.inr (Or.inr h2))⟩

theorem traceOf_not_canonical_and_dup :
    ∀ (l : List Entry) (h : List (α × Entry)),
      (l.map Entry.name).Nodup →
      ∀ (n t : Nat), (Event.insertedCanonical n) ∈ traceOf dig o unix h l →
        (Event.dupFound n t) ∉ traceOf dig o unix h l := by
  intro l
  induction l with
  | nil => intro h _ n t hev; simp [traceOf] at hev
  | cons e rest ih =>
    intro h hnd n t hins hdup
    simp only [List.map_cons, List.nodup_cons] at hnd
    cases hfind : h.find? (fun q => q.1 = dig e.content) with
    | some p =>
      have hins2 : (Event.insertedCanonical n) ∈ traceOf dig o unix h rest := by
        rcases (mem_traceOf_cons_dup hfind).mp hins with
          hev | hev | ⟨_, hev⟩ | ⟨_, _, hev⟩ | ⟨_, hev⟩ | hrest
        · cases hev
        · cases hev
        · cases hev
        · cases hev
        · cases hev
        · exact hrest
      rcases (mem_traceOf_cons_dup hfind).mp hdup with
        hev | hev | ⟨_, hev⟩ | ⟨_, _, hev⟩ | ⟨_, hev⟩ | hrest
      · cases hev
      · cases hev
        obtain ⟨x, hx, hn⟩ := traceOf_name_mem rest h _ hins2
        exact hnd.1 (List.mem_map.mpr ⟨x, hx, by simpa [evName] using hn.symm⟩)
      · cases hev
      · cases hev
      · cases hev
      · exact ih h hnd.2 n t hins2 hrest
    | none =>
      have hdup2 : (Event.dupFound n t) ∈
          traceOf dig o unix (h ++ [(dig e.content, e)]) rest := by
        rcases (mem_traceOf_cons_new hfind).mp hdup with hev | hev | hrest
        · cases hev
        · cases hev
        · exact hrest
      rcases (mem_traceOf_cons_new hfind).mp hins with hev | hev | hrest
      · cases hev
      · cases hev
        obtain ⟨x, hx, hn⟩ := traceOf_name_mem rest _ _ hdup2
        exact hnd.1 (List.mem_map.mpr ⟨x, hx, by simpa [evName] using hn.symm⟩)
      · exact ih _ hnd.2 n t hrest hdup2

theorem traceOf_linked_unique :
    ∀ (l : List Entry) (h : List (α × Entry)),
      (l.map Entry.name).Nodup →
      ∀ (n t t2 : Nat) (tc tc2 : List Byte),
        (Event.linked n t tc) ∈ traceOf dig o unix h l →
        (Event.linked n t2 tc2) ∈ traceOf dig o unix h l →
        t = t2 ∧ tc = tc2 := by
  intro l
  induction l with
  | nil => intro h _ n t t2 tc tc2 hev; simp [traceOf] at hev
  | cons e rest ih =>
    intro h hnd n t t2 tc tc2 hev1 hev2
    simp only [List.map_cons, List.nodup_cons] at hnd
    cases hfind : h.find? (fun q => q.1 = dig e.content) with
    | some p =>
      have hcase : ∀ (t3 : Nat) (tc3 : List Byte),
          (Event.linked n t3 tc3) ∈ traceOf dig o unix h (e :: rest) →
          (n = e.name ∧ t3 = p.2.name ∧ tc3 = p.2.content) ∨
          (Event.linked n t3 tc3) ∈ traceOf dig o unix h rest := by
        intro t3 tc3 hev
        rcases (mem_traceOf_cons_dup hfind).mp hev with
          hev | hev | ⟨_, hev⟩ | ⟨_, _, hev⟩ | ⟨_, hev⟩ | hrest
        · cases hev
        · cases hev
        · cases hev
        · cases hev
          exact Or.inl ⟨rfl, rfl, rfl⟩
        · cases hev
        · exact Or.inr hrest
      rcases hcase t tc hev1 with ⟨hn1, ht1, htc1⟩ | hr1
      · rcases hcase t2 tc2 hev2 with ⟨hn2, ht2, htc2⟩ | hr2
        · exact ⟨ht1.trans ht2.symm, htc1.trans htc2.symm⟩
        · obtain ⟨x, hx, hn⟩ := traceOf_name_mem rest h _ hr2
          exact absurd (List.mem_map.mpr ⟨x, hx, by
            simpa [evName, hn1] using hn.symm⟩) hnd.1
      · rcases hcase t2 tc2 hev2 with ⟨hn2, ht2, htc2⟩ | hr2
        · obtain ⟨x, hx, hn⟩ := traceOf_name_mem rest h _ hr1
          exact absurd (List.mem_map.mpr ⟨x, hx, by
            simpa [evName, hn2] using hn.symm⟩) hnd.1
        · exact ih h hnd.2 n t t2 tc tc2 hr1 hr2
    | none =>
      have hcase : ∀ (t3 : Nat) (tc3 : List Byte),
          (Event.linked n t3 tc3) ∈ traceOf dig o unix h (e :: rest) →
          (Event.linked n t3 tc3) ∈
            traceOf dig o unix (h ++ [(dig e.content, e)]) rest := by
        intro t3 tc3 hev
        rcases (mem_traceOf_cons_new hfind).mp hev with hev | hev | hrest
        · cases hev
        · cases hev
        · exact hrest
      exact ih _ hnd.2 n t t2 tc tc2 (hcase t tc hev1) (hcase t2 tc2 hev2)

end TraceLemmas

/-! Lemmas about replaying the trace on the directory content. -/

section ApplyLemmas

theorem traceLink_eq_some {tr : List Event} {n t : Nat} {tc : List Byte}
    (hmem : (Event.linked n t tc) ∈ tr)
    (huniq : ∀ (t2 : Nat) (tc2 : List Byte),
      (Event.linked n t2 tc2) ∈ tr → t2 = t ∧ tc2 = tc) :
    traceLink tr n = some (t, tc) := by
  induction tr with
  | nil => cases hmem
  | cons ev rest ih =>
    cases ev with
    | linked m t3 tc3 =>
      by_cases hm : m = n
      · subst hm
        obtain ⟨h1, h2⟩ := huniq t3 tc3 (List.mem_cons_self _ _)
        subst h1 h2
        simp [traceLink]
      · have hmem2 : (Event.linked n t tc) ∈ rest := by
          rcases List.mem_cons.mp hmem with hev | hev
          · cases hev; exact absurd rfl hm
          · exact hev
        have := ih hmem2 (fun t2 tc2 hin =>
          huniq t2 tc2 (List.mem_cons_of_mem _ hin))
        simpa [traceLink, hm] using this
    | hashed m =>
      have hmem2 : (Event.linked n t tc) ∈ rest := by
        rcases List.mem_cons.mp hmem with hev | hev
        · cases hev
        · exact hev
      have := ih hmem2 (fun t2 tc2 hin =>
        huniq t2 tc2 (List.mem_cons_of_mem _ hin))
      simpa [traceLink] using this
    | insertedCanonical m =>
      have hmem2 : (Event.linked n t tc) ∈ rest := by
        rcases List.mem_cons.mp hmem with hev | hev
        · cases hev
        · exact hev
      have := ih hmem2 (fun t2 tc2 hin =>
        huniq t2 tc2 (List.mem_cons_of_mem _ hin))
      simpa [traceLink] using this
    | dupFound m t3 =>
      have hmem2 : (Event.linked n t tc) ∈ rest := by
        rcases List.mem_cons.mp hmem with hev | hev
        · cases hev
        · exact hev
      have := ih hmem2 (fun t2 tc2 hin =>
        huniq t2 tc2 (List.mem_cons_of_mem _ hin))
      simpa [traceLink] using this
    | reported m =>
      have hmem2 : (Event.linked n t tc) ∈ rest := by
        rcases List.mem_cons.mp hmem with hev | hev
        · cases hev
        · exact hev
      have := ih hmem2 (fun t2 tc2 hin =>
        huniq t2 tc2 (List.mem_cons_of_mem _ hin))
      simpa [traceLink] using this
    | removed m =>
      have hmem2 : (Event.linked n t tc) ∈ rest := by
        rcases List.mem_cons.mp hmem with hev | hev
        · cases hev
        · exact hev
      have := ih hmem2 (fun t2 tc2 hin =>
        huniq t2 tc2 (List.mem_cons_of_mem _ hin))
      simpa [traceLink] using this

theorem traceLink_eq_none {tr : List Event} {n : Nat}
    (h : ∀ (t : Nat) (tc : List Byte), (Event.linked n t tc) ∉ tr) :
    traceLink tr n = none := by
  induction tr with
  | nil => rfl
  | cons ev rest ih =>
    have hrest : ∀ (t : Nat) (tc : List Byte), (Event.linked n t tc) ∉ rest :=
      fun t tc hin => h t tc (List.mem_cons_of_mem _ hin)
    cases ev with
    | linked m t3 tc3 =>
      have hm : ¬ (m = n) := by
        intro hm
        subst hm
        exact h t3 tc3 (List.mem_cons_self _ _)
      simpa [traceLink, hm] using ih hrest
    | hashed m => simpa [traceLink] using ih hrest
    | insertedCanonical m => simpa [traceLink] using ih hrest
    | dupFound m t3 => simpa [traceLink] using ih hrest
    | reported m => simpa [traceLink] using ih hrest
    | removed m => simpa [traceLink] using ih hrest

theorem traceDeleted_eq_false {tr : List Event} {n : Nat}
    (h : (Event.removed n) ∉ tr) : traceDeleted tr n = false := by
  rw [traceDeleted]
  rw [List.any_eq_false]
  intro ev hev
  cases ev with
  | removed m =>
    simp only [decide_eq_true_eq]
    intro hm
    subst hm
    exact h hev
  | hashed m => simp
  | insertedCanonical m => simp
  | dupFound m t => simp
  | reported m => simp
  | linked m t tc => simp

theorem applyTrace_keep {tr : List Event} {e : Entry}
    (hl : traceLink tr e.name = none) (hd : traceDeleted tr e.name = false)
    {cs : List Node} (hmem : Node.file e ∈ cs) :
    Node.file e ∈ applyTrace tr cs := by
  apply List.mem_filterMap.mpr
  refine ⟨Node.file e, hmem, ?_⟩
  simp [applyTrace, hl, hd]

theorem applyTrace_linked {tr : List Event} {e : Entry} {t : Nat}
    {tc : List Byte} (hl : traceLink tr e.name = some (t, tc))
    {cs : List Node} (hmem : Node.file e ∈ cs) :
    Node.file { e with ftype := FileType.symlink, content := tc } ∈
      applyTrace tr cs := by
  apply List.mem_filterMap.mpr
  refine ⟨Node.file e, hmem, ?_⟩
  simp [applyTrace, hl]

theorem applyTrace_id {tr : List Event}
    (hnr : ∀ n : Nat, (Event.removed n) ∉ tr)
    (hnl : ∀ (n t : Nat) (tc : List Byte), (Event.linked n t tc) ∉ tr) :
    ∀ cs : List Node, applyTrace tr cs = cs := by
  intro cs
  induction cs with
  | nil => rfl
  | cons c rest ih =>
    cases c with
    | dir e lOk children =>
      simp only [applyTrace, List.filterMap_cons]
      simp only [applyTrace] at ih
      rw [ih]
    | file e =>
      have hl : traceLink tr e.name = none := traceLink_eq_none (hnl e.name)
      have hd : traceDeleted tr e.name = false := traceDeleted_eq_false (hnr e.name)
      simp only [applyTrace, List.filterMap_cons, hl, hd]
      simp only [applyTrace] at ih
      simp [ih]

end ApplyLemmas

/-! Counting lemmas: the duplicate count of a bucket as a closed
formula, its invariance under permutation, and the sum over all
buckets of one directory. -/

section CountLemmas

variable {α : Type} [DecidableEq α] {dig : List Byte → α}

theorem countDups_formula :
    ∀ (l : List Entry) (h : List (α × Entry)),
      countDups dig h l =
        l.length -
          (((l.map (fun e => dig e.content)).toFinset) \
            ((h.map Prod.fst).toFinset)).card := by
  intro l
  induction l with
  | nil => intro h; simp [countDups]
  | cons e rest ih =>
    intro h
    have hTle : ((rest.map (fun e => dig e.content)).toFinset).card ≤ rest.length := by
      calc ((rest.map (fun e => dig e.content)).toFinset).card
          ≤ (rest.map (fun e => dig e.content)).length := List.toFinset_card_le _
        _ = rest.length := List.length_map _ _
    cases hfind : h.find? (fun q => q.1 = dig e.content) with
    | some p =>
      obtain ⟨hp, hp1⟩ := find?_key_mem hfind
      have hdK : dig e.content ∈ (h.map Prod.fst).toFinset := by
        rw [List.mem_toFinset]
        exact List.mem_map.mpr ⟨p, hp, hp1⟩
      have habsorb :
          ((insert (dig e.content) (rest.map (fun e => dig e.content)).toFinset) \
            ((h.map Prod.fst).toFinset)) =
          (((rest.map (fun e => dig e.content)).toFinset) \
            ((h.map Prod.fst).toFinset)) := by
        ext x
        by_cases hx : x = dig e.content
        · subst hx
          simp [hdK]
        · simp [hx]
      have hcard :
          ((((rest.map (fun e => dig e.content)).toFinset) \
            ((h.map Prod.fst).toFinset))).card ≤ rest.length := by
        calc ((((rest.map (fun e => dig e.content)).toFinset) \
            ((h.map Prod.fst).toFinset))).card
            ≤ ((rest.map (fun e => dig e.content)).toFinset).card :=
              Finset.card_le_card (Finset.sdiff_subset)
          _ ≤ rest.length := hTle
      simp only [countDups, hfind, ih h, List.length_cons, List.map_cons,
        List.toFinset_cons, habsorb]
      omega
    | none =>
      have hdK : dig e.content ∉ (h.map Prod.fst).toFinset := by
        rw [List.mem_toFinset]
        intro hmem
        obtain ⟨p, hfp⟩ := keys_find?_some hmem
        rw [hfind] at hfp
        cases hfp
      have hkeys :
          (((h ++ [(dig e.content, e)]).map Prod.fst).toFinset) =
            insert (dig e.content) ((h.map Prod.fst).toFinset) := by
        ext x
        simp [or_comm]
      have hsplit :
          ((insert (dig e.content) (rest.map (fun e => dig e.content)).toFinset) \
            ((h.map Prod.fst).toFinset)) =
          insert (dig e.content)
            (((rest.map (fun e => dig e.content)).toFinset) \
              (insert (dig e.content) ((h.map Prod.fst).toFinset))) := by
        ext x
        by_cases hx : x = dig e.content
        · subst hx
          simp [hdK]
        · simp [hx]
      have hnotmem : dig e.content ∉
          (((rest.map (fun e => dig e.content)).toFinset) \
            (insert (dig e.content) ((h.map Prod.fst).toFinset))) := by
        simp
      have hcard2 :
          ((((rest.map (fun e => dig e.content)).toFinset) \
            (insert (dig e.content) ((h.map Prod.fst).toFinset)))).card ≤
            rest.length := by
        calc ((((rest.map (fun e => dig e.content)).toFinset) \
            (insert (dig e.content) ((h.map Prod.fst).toFinset)))).card
            ≤ ((rest.map (fun e => dig e.content)).toFinset).card :=
              Finset.card_le_card (Finset.sdiff_subset)
          _ ≤ rest.length := hTle
      simp only [countDups, hfind, ih (h ++ [(dig e.content, e)]),
        List.length_cons, List.map_cons, List.toFinset_cons, hkeys, hsplit,
        Finset.card_insert_of_not_mem hnotmem]
      omega

theorem countDups_empty_formula (l : List Entry) :
    countDups dig ([] : List (α × Entry)) l =
      l.length - ((l.map (fun e => dig e.content)).toFinset).card := by
  rw [countDups_formula]
  simp

theorem countDups_perm {l l2 : List Entry} (hp : l.Perm l2) :
    countDups dig ([] : List (α × Entry)) l =
      countDups dig ([] : List (α × Entry)) l2 := by
  rw [countDups_empty_formula, countDups_empty_formula, hp.length_eq,
    List.toFinset_eq_of_perm _ _ (hp.map _)]

theorem countDups_short (b : List Entry) (hlen : ¬ 1 < b.length) :
    countDups dig ([] : List (α × Entry)) b = 0 := by
  match b with
  | [] => rfl
  | [x] => simp [countDups]
  | x :: y :: rest => simp at hlen

theorem bucketsCount_eq_sum (m : List (Nat × List Entry)) :
    bucketsCount dig m =
      (m.map (fun kb => countDups dig ([] : List (α × Entry)) kb.2)).sum := by
  induction m with
  | nil => rfl
  | cons kb rest ih =>
    obtain ⟨k, b⟩ := kb
    by_cases hlen : 1 < b.length
    · simp only [bucketsCount, List.map_cons, List.sum_cons, if_pos hlen]
      simp only [bucketsCount] at ih
      rw [ih]
    · simp only [bucketsCount, List.map_cons, List.sum_cons, if_neg hlen]
      simp only [bucketsCount] at ih
      rw [ih, countDups_short b hlen]

theorem countDups_append_singleton (b : List Entry) (e : Entry) :
    countDups dig ([] : List (α × Entry)) (b ++ [e]) =
      countDups dig ([] : List (α × Entry)) b +
        (if dig e.content ∈ b.map (fun x => dig x.content) then 1 else 0) := by
  rw [countDups_empty_formula, countDups_empty_formula]
  have hTle : ((b.map (fun x => dig x.content)).toFinset).card ≤ b.length := by
    calc ((b.map (fun x => dig x.content)).toFinset).card
        ≤ (b.map (fun x => dig x.content)).length := List.toFinset_card_le _
      _ = b.length := List.length_map _ _
  by_cases hmem : dig e.content ∈ b.map (fun x => dig x.content)
  · have : ((b ++ [e]).map (fun x => dig x.content)).toFinset =
        (b.map (fun x => dig x.content)).toFinset := by
      ext x
      simp only [List.map_append, List.toFinset_append, List.map_cons,
        List.map_nil, Finset.mem_union, List.mem_toFinset]
      constructor
      · rintro (hx | hx)
        · exact hx
        · simp at hx
          exact hx ▸ hmem
      · exact fun hx => Or.inl hx
    rw [this, if_pos hmem]
    simp only [List.length_append, List.length_cons, List.length_nil]
    omega
  · have : ((b ++ [e]).map (fun x => dig x.content)).toFinset =
        insert (dig e.content) (b.map (fun x => dig x.content)).toFinset := by
      ext x
      simp only [List.map_append, List.toFinset_append, List.map_cons,
        List.map_nil, Finset.mem_union, List.mem_toFinset, Finset.mem_insert]
      simp [or_comm]
    have hnm : dig e.content ∉ (b.map (fun x => dig x.content)).toFinset := by
      rw [List.mem_toFinset]; exact hmem
    rw [this, if_neg hmem, Finset.card_insert_of_not_mem hnm]
    simp only [List.length_append, List.length_cons, List.length_nil]
    omega

theorem sum_countDups_pushBucket (m : List (Nat × List Entry)) (k : Nat)
    (e : Entry) :
    ((pushBucket m k e).map
        (fun kb => countDups dig ([] : List (α × Entry)) kb.2)).sum =
      (m.map (fun kb => countDups dig ([] : List (α × Entry)) kb.2)).sum +
        (if dig e.content ∈ (bucketAt m k).map (fun x => dig x.content)
         then 1 else 0) := by
  induction m with
  | nil => simp [pushBucket, bucketAt, countDups]
  | cons kb rest ih =>
    obtain ⟨k2, v⟩ := kb
    by_cases hk : k2 = k
    · subst hk
      simp [pushBucket, bucketAt, countDups_append_singleton]
      omega
    · simp only [pushBucket, if_neg hk, List.map_cons, List.sum_cons, ih,
        bucketAt]
      omega

theorem sum_countDups_collect (l : List Entry) :
    ((collectBuckets l).map
        (fun kb => countDups dig ([] : List (α × Entry)) kb.2)).sum =
      l.length - ((l.map (fun e => (e.len, dig e.content))).toFinset).card := by
  induction l using List.reverseRecOn with
  | nil => simp [collectBuckets]
  | append_singleton l e ih =>
    have hfold : collectBuckets (l ++ [e]) =
        pushBucket (collectBuckets l) e.len e := by
      simp [collectBuckets, List.foldl_append]
    have hbridge : (dig e.content ∈
          (bucketAt (collectBuckets l) e.len).map (fun x => dig x.content)) ↔
        ((e.len, dig e.content) ∈
          l.map (fun x => (x.len, dig x.content))) := by
      rw [collectBuckets_at]
      simp only [List.mem_map, List.mem_filter, decide_eq_true_eq]
      constructor
      · rintro ⟨x, ⟨hx, hlen⟩, hd⟩
        exact ⟨x, hx, by rw [hlen, hd]⟩
      · rintro ⟨x, hx, hpair⟩
        obtain ⟨h1, h2⟩ := Prod.mk.injEq .. ▸ hpair
        exact ⟨x, ⟨hx, h1⟩, h2⟩
    have hTle : ((l.map (fun x => (x.len, dig x.content))).toFinset).card ≤
        l.length := by
      calc ((l.map (fun x => (x.len, dig x.content))).toFinset).card
          ≤ (l.map (fun x => (x.len, dig x.content))).length :=
            List.toFinset_card_le _
        _ = l.length := List.length_map _ _
    rw [hfold, sum_countDups_pushBucket, ih]
    by_cases hmem : (e.len, dig e.content) ∈
        l.map (fun x => (x.len, dig x.content))
    · have hset : ((l ++ [e]).map (fun x => (x.len, dig x.content))).toFinset =
          (l.map (fun x => (x.len, dig x.content))).toFinset := by
        ext x
        simp only [List.map_append, List.toFinset_append, Finset.mem_union,
          List.map_cons, List.map_nil, List.mem_toFinset]
        constructor
        · rintro (hx | hx)
          · exact hx
          · simp at hx
            exact hx ▸ hmem
        · exact fun hx => Or.inl hx
      rw [if_pos (hbridge.mpr hmem), hset]
      simp only [List.length_append, List.length_cons, List.length_nil]
      omega
    · have hnm : (e.len, dig e.content) ∉
          (l.map (fun x => (x.len, dig x.content))).toFinset := by
        rw [List.mem_toFinset]; exact hmem
      have hset : ((l ++ [e]).map (fun x => (x.len, dig x.content))).toFinset =
          insert (e.len, dig e.content)
            (l.map (fun x => (x.len, dig x.content))).toFinset := by
        ext x
        simp only [List.map_append, List.toFinset_append, Finset.mem_union,
          List.map_cons, List.map_nil, List.mem_toFinset, Finset.mem_insert]
        simp [or_comm]
      rw [if_neg (fun hc => hmem (hbridge.mp hc)), hset,
        Finset.card_insert_of_not_mem hnm]
      simp only [List.length_append, List.length_cons, List.length_nil]
      omega

theorem pairs_card_inj (hinj : Function.Injective dig) (l : List Entry) :
    ((l.map (fun e => (e.len, dig e.content))).toFinset).card =
      ((l.map (fun e => (e.len, e.content))).toFinset).card := by
  have himg : (l.map (fun e => (e.len, dig e.content))).toFinset =
      Finset.image (fun q : Nat × List Byte => (q.1, dig q.2))
        ((l.map (fun e => (e.len, e.content))).toFinset) := by
    ext x
    simp only [List.mem_toFinset, List.mem_map, Finset.mem_image]
    constructor
    · rintro ⟨e, he, rfl⟩
      exact ⟨(e.len, e.content), ⟨e, he, rfl⟩, rfl⟩
    · rintro ⟨q, ⟨e, he, rfl⟩, rfl⟩
      exact ⟨e, he, rfl⟩
  have hfinj : Function.Injective
      (fun q : Nat × List Byte => (q.1, dig q.2)) := by
    rintro ⟨a, b⟩ ⟨c, d⟩ hq
    obtain ⟨h1, h2⟩ := Prod.mk.injEq .. ▸ hq
    rw [Prod.mk.injEq]
    exact ⟨h1, hinj h2⟩
  rw [himg, Finset.card_image_of_injective _ hfinj]

theorem dirDupCount_perm {l l2 : List Entry} (hp : l.Perm l2) :
    dirDupCount l = dirDupCount l2 := by
  rw [dirDupCount, dirDupCount, hp.length_eq,
    List.toFinset_eq_of_perm _ _ (hp.map _)]

theorem bucketsCount_spec (hinj : Function.Injective dig) (l : List Entry) :
    bucketsCount dig (collectBuckets l) = dirDupCount l := by
  rw [bucketsCount_eq_sum, sum_countDups_collect, dirDupCount,
    pairs_card_inj hinj]

end CountLemmas

/-! Tree-level lemmas. -/

section TreeLemmas

variable {α : Type} [DecidableEq α] {dig : List Byte → α} {o : Opt} {unix : Bool}

theorem childrenOk_facts :
    ∀ (cs : List Node), childrenOk o unix cs = true →
      (∀ c ∈ cs, c.info.metaOk = true) ∧
      (∀ c ∈ cs, c.info.createdOk = true) ∧
      (∀ e ∈ filesOf cs, entryOpOk o unix e = true) ∧
      (∀ c ∈ cs, isDirNotSymlink c = true → nodeOk o unix c = true) := by
  intro cs
  induction cs with
  | nil => intro _; exact ⟨by simp, by simp, by simp [filesOf], by simp⟩
  | cons c rest ih =>
    intro hok
    simp only [childrenOk, Bool.and_eq_true] at hok
    obtain ⟨⟨⟨hm, hc⟩, hbranch⟩, hrest⟩ := hok
    obtain ⟨ih1, ih2, ih3, ih4⟩ := ih hrest
    refine ⟨?_, ?_, ?_, ?_⟩
    · intro x hx
      rcases List.mem_cons.mp hx with rfl | hx
      · exact hm
      · exact ih1 x hx
    · intro x hx
      rcases List.mem_cons.mp hx with rfl | hx
      · exact hc
      · exact ih2 x hx
    · intro e he
      by_cases hdir : isDirNotSymlink c = true
      · have : filesOf (c :: rest) = filesOf rest := by
          simp [filesOf, List.filter_cons, hdir]
        rw [this] at he
        exact ih3 e he
      · have hdir2 : isDirNotSymlink c = false := by
          cases hd : isDirNotSymlink c
          · rfl
          · exact absurd hd hdir
        have : filesOf (c :: rest) = c.info :: filesOf rest := by
          simp [filesOf, List.filter_cons, hdir2]
        rw [this] at he
        rcases List.mem_cons.mp he with rfl | he
        · rw [if_neg (by simp [hdir2])] at hbranch
          exact hbranch
        · exact ih3 e he
    · intro x hx hdir
      rcases List.mem_cons.mp hx with rfl | hx
      · rw [if_pos hdir] at hbranch
        exact hbranch
      · exact ih4 x hx hdir

theorem tracesOf_name_mem :
    ∀ (m : List (Nat × List Entry)) (ev : Event),
      ev ∈ tracesOf dig o unix m →
      ∃ kb ∈ m, 1 < (kb.2 : List Entry).length ∧
        ∃ e ∈ kb.2, evName ev = e.name := by
  intro m
  induction m with
  | nil => intro ev hev; simp [tracesOf] at hev
  | cons kb rest ih =>
    intro ev hev
    obtain ⟨k, b⟩ := kb
    by_cases hlen : 1 < b.length
    · simp only [tracesOf, if_pos hlen] at hev
      rcases List.mem_append.mp hev with hev | hev
      · obtain ⟨e, he, hn⟩ := traceOf_name_mem b [] ev hev
        exact ⟨(k, b), List.mem_cons_self _ _, hlen, e, he, hn⟩
      · obtain ⟨kb2, hkb2, hl2, e, he, hn⟩ := ih ev hev
        exact ⟨kb2, List.mem_cons_of_mem _ hkb2, hl2, e, he, hn⟩
    · simp only [tracesOf, if_neg hlen, List.nil_append] at hev
      obtain ⟨kb2, hkb2, hl2, e, he, hn⟩ := ih ev hev
      exact ⟨kb2, List.mem_cons_of_mem _ hkb2, hl2, e, he, hn⟩

theorem tracesOf_dry_no_removed (hdry : o.dry = true) :
    ∀ (m : List (Nat × List Entry)) (n : Nat),
      (Event.removed n) ∉ tracesOf dig o unix m := by
  intro m
  induction m with
  | nil => intro n hev; simp [tracesOf] at hev
  | cons kb rest ih =>
    intro n hev
    obtain ⟨k, b⟩ := kb
    by_cases hlen : 1 < b.length
    · simp only [tracesOf, if_pos hlen] at hev
      rcases List.mem_append.mp hev with hev | hev
      · exact traceOf_dry_no_removed hdry b [] n hev
      · exact ih n hev
    · simp only [tracesOf, if_neg hlen, List.nil_append] at hev
      exact ih n hev

theorem tracesOf_dry_no_linked (hdry : o.dry = true) :
    ∀ (m : List (Nat × List Entry)) (n t : Nat) (tc : List Byte),
      (Event.linked n t tc) ∉ tracesOf dig o unix m := by
  intro m
  induction m with
  | nil => intro n t tc hev; simp [tracesOf] at hev
  | cons kb rest ih =>
    intro n t tc hev
    obtain ⟨k, b⟩ := kb
    by_cases hlen : 1 < b.length
    · simp only [tracesOf, if_pos hlen] at hev
      rcases List.mem_append.mp hev with hev | hev
      · exact traceOf_dry_no_linked hdry b [] n t tc hev
      · exact ih n t tc hev
    · simp only [tracesOf, if_neg hlen, List.nil_append] at hev
      exact ih n t tc hev

theorem traceOf_dry_counts (hdry : o.dry = true) :
    ∀ (l : List Entry) (h : List (α × Entry)),
      countDups dig h l =
        (traceOf dig o unix h l).countP (fun ev => isReportedEvt ev) ∧
      countDups dig h l =
        (traceOf dig o unix h l).countP (fun ev => isDupFoundEvt ev) := by
  intro l
  induction l with
  | nil => intro h; simp [countDups, traceOf]
  | cons e rest ih =>
    intro h
    cases hfind : h.find? (fun q => q.1 = dig e.content) with
    | some p =>
      obtain ⟨ih1, ih2⟩ := ih h
      constructor
      · simp [countDups, traceOf, hfind, hdry, List.countP_append,
          isReportedEvt, isDupFoundEvt, ih1]
      · simp [countDups, traceOf, hfind, hdry, List.countP_append,
          isReportedEvt, isDupFoundEvt, ih2]
    | none =>
      obtain ⟨ih1, ih2⟩ := ih (h ++ [(dig e.content, e)])
      constructor
      · simp [countDups, traceOf, hfind, List.countP_append,
          isReportedEvt, isDupFoundEvt, ih1]
      · simp [countDups, traceOf, hfind, List.countP_append,
          isReportedEvt, isDupFoundEvt, ih2]

theorem processChildren_keeps_files :
    ∀ (cs : List Node) (cs2 : List Node) (k : Nat),
      processChildren dig o unix cs = .ok (cs2, k) →
      ∀ e : Entry, Node.file e ∈ cs → Node.file e ∈ cs2 := by
  intro cs
  induction cs with
  | nil =>
    intro cs2 k hr e he
    cases he
  | cons c rest ih =>
    intro cs2 k hr e he
    simp only [processChildren] at hr
    cases hhead : (if isDirNotSymlink c then process_directory dig o unix c
        else .ok (c, 0)) with
    | error err => rw [hhead] at hr; cases hr
    | ok pr =>
      obtain ⟨c2, k1⟩ := pr
      rw [hhead] at hr
      cases hrest : processChildren dig o unix rest with
      | error err => rw [hrest] at hr; cases hr
      | ok pr2 =>
        obtain ⟨rest2, k2⟩ := pr2
        rw [hrest] at hr
        simp only [Except.ok.injEq, Prod.mk.injEq] at hr
        obtain ⟨hcs2, hk⟩ := hr
        subst hcs2
        rcases List.mem_cons.mp he with rfl | he
        · have hc2 : c2 = Node.file e := by
            by_cases hdir : isDirNotSymlink (Node.file e) = true
            · rw [if_pos hdir] at hhead
              simp only [process_directory, Except.ok.injEq,
                Prod.mk.injEq] at hhead
              exact hhead.1.symm
            · rw [if_neg hdir] at hhead
              simp only [Except.ok.injEq, Prod.mk.injEq] at hhead
              exact hhead.1.symm
          rw [hc2]
          exact List.mem_cons_self _ _
        · exact List.mem_cons_of_mem _ (ih rest2 k2 hrest e he)

theorem processChildren_pass {c : Node} {rest cs2 : List Node} {k : Nat}
    (hdir : isDirNotSymlink c = false)
    (hr : processChildren dig o unix (c :: rest) = .ok (cs2, k)) :
    ∃ rest2, cs2 = c :: rest2 ∧
      processChildren dig o unix rest = .ok (rest2, k) := by
  simp only [processChildren, hdir, Bool.false_eq_true, if_false] at hr
  cases hrest : processChildren dig o unix rest with
  | error err => rw [hrest] at hr; cases hr
  | ok pr =>
    obtain ⟨rest2, k2⟩ := pr
    rw [hrest] at hr
    simp only [Except.ok.injEq, Prod.mk.injEq] at hr
    obtain ⟨hcs2, hk⟩ := hr
    refine ⟨rest2, hcs2.symm, ?_⟩
    have hk2 : k = k2 := by omega
    subst hk2
    rfl


theorem process_directory_dir_unfold {α : Type} [DecidableEq α]
    (dig : List Byte → α) (o : Opt) (unix : Bool) (e : Entry)
    (listOk : Bool) (children : List Node) :
    process_directory dig o unix (.dir e listOk children) =
      (if listOk = false then .error .dirUnreadable
       else if children.any (fun c => c.info.metaOk = false) then
         .error .metadataUnavailable
       else if 2 ≤ children.length ∧
           children.any (fun c => c.info.createdOk = false) then
         .error .timestampUnsupported
       else
         match processChildren dig o unix children with
         | .error err => .error err
         | .ok (children2, subCount) =>
           match runBuckets dig o unix ⟨[], 0⟩
               (collectBuckets (sortByCreated (filesOf children))) with
           | .error (err, _) => .error err
           | .ok g =>
             .ok (.dir e listOk (applyTrace g.trace children2),
               subCount + g.count)) := rfl

theorem process_directory_ok {α : Type} [DecidableEq α] (dig : List Byte → α)
    (hinj : Function.Injective dig) (o : Opt) (unix : Bool) (t : Node) :
    nodeOk o unix t = true →
      ∃ t2, process_directory dig o unix t = .ok (t2, specCountNode t) := by
  refine @Node.rec
    (fun t => nodeOk o unix t = true →
      ∃ t2, process_directory dig o unix t = .ok (t2, specCountNode t))
    (fun cs => childrenOk o unix cs = true →
      ∃ cs2, processChildren dig o unix cs = .ok (cs2, specCountList cs))
    ?_ ?_ ?_ ?_ t
  · intro e _
    exact ⟨Node.file e, rfl⟩
  · intro e listOk children ihcs hok
    simp only [nodeOk, Bool.and_eq_true] at hok
    obtain ⟨hlist, hcs⟩ := hok
    obtain ⟨cs2, hpc⟩ := ihcs hcs
    obtain ⟨hm, hc, hfiles, _⟩ := childrenOk_facts children hcs
    have hbok : ∀ kb ∈ collectBuckets (sortByCreated (filesOf children)),
        1 < (kb.2 : List Entry).length →
        ∀ x ∈ kb.2, entryOpOk o unix x = true := by
      rintro ⟨k, b⟩ hkb _ x hx
      have hx2 : x ∈ sortByCreated (filesOf children) :=
        mem_of_mem_collectBuckets hkb hx
      exact hfiles x ((sortByCreated_perm _).subset hx2)
    obtain ⟨g, hrb⟩ := @runBuckets_ok_of_opOk _ _ dig o unix
      (collectBuckets (sortByCreated (filesOf children))) ⟨[], 0⟩ hbok
    obtain ⟨htr, hcnt⟩ := runBuckets_ok_char _ _ _ hrb
    have hcount : g.count =
        dirDupCount (filesOf children) := by
      rw [hcnt, bucketsCount_spec hinj,
        dirDupCount_perm (sortByCreated_perm (filesOf children))]
      simp
    have hlist2 : ¬ (listOk = false) := by simp [hlist]
    have hany1 : ¬ (children.any (fun c => c.info.metaOk = false) = true) := by
      rw [List.any_eq_true]
      rintro ⟨c, hcmem, hcf⟩
      rw [hm c hcmem] at hcf
      simp at hcf
    have hcond : ¬ (2 ≤ children.length ∧
        children.any (fun c => c.info.createdOk = false) = true) := by
      rintro ⟨_, hany⟩
      rw [List.any_eq_true] at hany
      obtain ⟨c, hcmem, hcf⟩ := hany
      rw [hc c hcmem] at hcf
      simp at hcf
    refine ⟨Node.dir e listOk (applyTrace g.trace cs2), ?_⟩
    simp only [process_directory, hlist2, if_false, hany1, hcond, hpc, hrb]
    simp only [specCountNode, Except.ok.injEq, Prod.mk.injEq]
    simp [hcount]
  · intro _
    exact ⟨[], rfl⟩
  · intro c rest ihc ihrest hok
    simp only [childrenOk, Bool.and_eq_true] at hok
    obtain ⟨⟨⟨hm, hcr⟩, hbranch⟩, hrest⟩ := hok
    obtain ⟨rest2, hr2⟩ := ihrest hrest
    cases hdir : isDirNotSymlink c with
    | true =>
      rw [if_pos hdir] at hbranch
      obtain ⟨c2, hc2⟩ := ihc hbranch
      refine ⟨c2 :: rest2, ?_⟩
      simp only [processChildren, hdir, if_true, hc2, hr2]
      simp only [specCountList, hdir, if_true]
    | false =>
      refine ⟨c :: rest2, ?_⟩
      simp only [processChildren, hdir, Bool.false_eq_true, if_false, hr2]
      simp [specCountList, hdir]

theorem process_directory_dry_id {α : Type} [DecidableEq α]
    (dig : List Byte → α) (o : Opt) (unix : Bool) (hdry : o.dry = true)
    (t : Node) :
    ∀ (t2 : Node) (k : Nat),
      process_directory dig o unix t = .ok (t2, k) → t2 = t := by
  refine @Node.rec
    (fun t => ∀ (t2 : Node) (k : Nat),
      process_directory dig o unix t = .ok (t2, k) → t2 = t)
    (fun cs => ∀ (cs2 : List Node) (k : Nat),
      processChildren dig o unix cs = .ok (cs2, k) → cs2 = cs)
    ?_ ?_ ?_ ?_ t
  · intro e t2 k hr
    simp only [process_directory, Except.ok.injEq, Prod.mk.injEq] at hr
    exact hr.1.symm
  · intro e listOk children ihcs t2 k hr
    rw [process_directory_dir_unfold] at hr
    by_cases hlist : listOk = false
    · rw [if_pos hlist] at hr
      simp at hr
    rw [if_neg hlist] at hr
    by_cases hany1 : children.any (fun c => c.info.metaOk = false) = true
    · rw [if_pos hany1] at hr
      simp at hr
    rw [if_neg hany1] at hr
    by_cases hcond : 2 ≤ children.length ∧
        children.any (fun c => c.info.createdOk = false) = true
    · rw [if_pos hcond] at hr
      simp at hr
    rw [if_neg hcond] at hr
    cases hpc : processChildren dig o unix children with
    | error err => rw [hpc] at hr; cases hr
    | ok pr =>
      obtain ⟨cs2, k1⟩ := pr
      rw [hpc] at hr
      cases hrb : runBuckets dig o unix ⟨[], 0⟩
          (collectBuckets (sortByCreated (filesOf children))) with
      | error err => rw [hrb] at hr; cases hr
      | ok g =>
        rw [hrb] at hr
        simp only [Except.ok.injEq, Prod.mk.injEq] at hr
        obtain ⟨ht2, _⟩ := hr
        obtain ⟨htr, _⟩ := runBuckets_ok_char _ _ _ hrb
        simp only [List.nil_append] at htr
        have hnr : ∀ n : Nat, (Event.removed n) ∉ g.trace := by
          intro n
          rw [htr]
          exact tracesOf_dry_no_removed hdry _ n
        have hnl : ∀ (n t : Nat) (tc : List Byte),
            (Event.linked n t tc) ∉ g.trace := by
          intro n t tc
          rw [htr]
          exact tracesOf_dry_no_linked hdry _ n t tc
        rw [← ht2, ihcs cs2 k1 hpc, applyTrace_id hnr hnl]
  · intro cs2 k hr
    simp only [processChildren, Except.ok.injEq, Prod.mk.injEq] at hr
    exact hr.1.symm
  · intro c rest ihc ihrest cs2 k hr
    simp only [processChildren] at hr
    cases hhead : (if isDirNotSymlink c then process_directory dig o unix c
        else .ok (c, 0)) with
    | error err => rw [hhead] at hr; cases hr
    | ok pr =>
      obtain ⟨c2, k1⟩ := pr
      rw [hhead] at hr
      cases hrest2 : processChildren dig o unix rest with
      | error err => rw [hrest2] at hr; cases hr
      | ok pr2 =>
        obtain ⟨rest3, k2⟩ := pr2
        rw [hrest2] at hr
        simp only [Except.ok.injEq, Prod.mk.injEq] at hr
        obtain ⟨hcs2, _⟩ := hr
        have hc2 : c2 = c := by
          by_cases hdir : isDirNotSymlink c = true
          · rw [if_pos hdir] at hhead
            exact ihc c2 k1 hhead
          · rw [if_neg hdir] at hhead
            simp only [Except.ok.injEq, Prod.mk.injEq] at hhead
            exact hhead.1.symm
        rw [← hcs2, hc2, ihrest rest3 k2 hrest2]

end TreeLemmas

/-! The nondeterministic counting semantics is deterministic and equal
to the specified count. -/

section CountRelLemmas

theorem sum_eq_of_zip_fun {β : Type} :
    ∀ (l1 : List β) (l2 : List Nat) (f : β → Nat),
      l2.length = l1.length →
      (∀ p ∈ l1.zip l2, p.2 = f p.1) →
      l2.sum = (l1.map f).sum := by
  intro l1
  induction l1 with
  | nil =>
    intro l2 f hlen _
    cases l2 with
    | nil => rfl
    | cons x xs => simp at hlen
  | cons b rest ih =>
    intro l2 f hlen hp
    cases l2 with
    | nil => simp at hlen
    | cons k ks =>
      have h1 : k = f b := hp (b, k) (by simp)
      simp only [List.map_cons, List.sum_cons]
      rw [h1, ih ks f (by simpa using hlen)
        (fun p hp2 => hp p (by simp [hp2]))]

theorem specCountList_eq_sum (cs : List Node) :
    specCountList cs =
      (cs.map (fun c => if isDirNotSymlink c then specCountNode c else 0)).sum := by
  induction cs with
  | nil => rfl
  | cons c rest ih => simp [specCountList, ih]

theorem CountRel_eq_spec {α : Type} [DecidableEq α] {dig : List Byte → α}
    (hinj : Function.Injective dig) :
    ∀ (t : Node) (k : Nat), CountRel dig t k → k = specCountNode t := by
  intro t k h
  induction h with
  | file e => rfl
  | dir e listOk children childCounts bucketCounts hlen1 hchild hchild0 hlen2
      hbucket ihchild =>
    have hA : childCounts.sum = specCountList children := by
      rw [specCountList_eq_sum]
      refine sum_eq_of_zip_fun children childCounts _ hlen1 ?_
      intro p hp
      by_cases hdir : isDirNotSymlink p.1 = true
      · rw [if_pos hdir]
        exact ihchild p hp hdir
      · rw [if_neg hdir]
        exact hchild0 p hp (by rw [Bool.not_eq_true] at hdir; exact hdir)
    have hpw : ∀ q ∈ (collectBuckets (sortByCreated (filesOf children))).zip
        bucketCounts, q.2 = countDups dig [] q.1.2 := by
      intro q hq
      obtain ⟨p, hperm, hq2⟩ := hbucket q hq
      by_cases hlen : 1 < p.length
      · rw [hq2, if_pos hlen]
        exact countDups_perm hperm
      · rw [hq2, if_neg hlen, ← countDups_perm hperm]
        exact (countDups_short p hlen).symm
    have hB : bucketCounts.sum = dirDupCount (filesOf children) := by
      rw [sum_eq_of_zip_fun _ bucketCounts (fun kb => countDups dig [] kb.2)
        hlen2 hpw, ← bucketsCount_eq_sum, bucketsCount_spec hinj,
        dirDupCount_perm (sortByCreated_perm _)]
    simp only [specCountNode]
    rw [hA, hB]

end CountRelLemmas

/-! Claim theorems. -/

/-- Claim C1, code-bug evaluation.  The source sorts the directory
entries by creation timestamp so that the oldest member of each
duplicate group becomes canonical (the CLI help text promises the
symlink target is the oldest file), but the sorted entries are then
pushed into the size buckets from a rayon par_iter loop whose effect
order is not guaranteed, so a bucket can hold any permutation of the
creation-sorted order.  This theorem evaluates the resolver on a
two-file duplicate group: the first conjuncts fix the creation-sorted
order and state that the reversed order is a permutation of it, hence a
bucket arrangement reachable under par_iter scheduling; on the sorted
order the oldest file (name 0, created 0) is retained and the newer one
removed, but on the permuted order the newer file (name 1, created 1)
becomes canonical and the oldest file is removed - so the run does not
always retain the oldest member, as the claim states. -/
theorem c1_scheduling_can_remove_oldest :
    sortByCreated [⟨0, 0, 1, .regular, [7], true, true, true, true, true⟩,
        ⟨1, 1, 1, .regular, [7], true, true, true, true, true⟩] =
      [⟨0, 0, 1, .regular, [7], true, true, true, true, true⟩,
        ⟨1, 1, 1, .regular, [7], true, true, true, true, true⟩] ∧
    List.Perm
      ([⟨1, 1, 1, .regular, [7], true, true, true, true, true⟩,
        ⟨0, 0, 1, .regular, [7], true, true, true, true, true⟩] : List Entry)
      (sortByCreated [⟨0, 0, 1, .regular, [7], true, true, true, true, true⟩,
        ⟨1, 1, 1, .regular, [7], true, true, true, true, true⟩]) ∧
    runBucket (fun c => c) ⟨false, false⟩ true [] ⟨[], 0⟩
        [⟨0, 0, 1, .regular, [7], true, true, true, true, true⟩,
          ⟨1, 1, 1, .regular, [7], true, true, true, true, true⟩] =
      .ok ([([7], ⟨0, 0, 1, .regular, [7], true, true, true, true, true⟩)],
        ⟨[.hashed 0, .insertedCanonical 0, .hashed 1, .dupFound 1 0,
          .removed 1], 1⟩) ∧
    runBucket (fun c => c) ⟨false, false⟩ true [] ⟨[], 0⟩
        [⟨1, 1, 1, .regular, [7], true, true, true, true, true⟩,
          ⟨0, 0, 1, .regular, [7], true, true, true, true, true⟩] =
      .ok ([([7], ⟨1, 1, 1, .regular, [7], true, true, true, true, true⟩)],
        ⟨[.hashed 1, .insertedCanonical 1, .hashed 0, .dupFound 0 1,
          .removed 0], 1⟩) :=
  ⟨rfl, by decide, rfl, rfl⟩

/-- Claim C2: within one size bucket, a pair of entries with different
content is never linked by a duplicate classification, and an entry
whose content differs from that of every other entry of the bucket is
never counted, reported, removed or replaced by a link - whatever the
order and however many entries share the bucket.  The digest is assumed
collision-free (injective), which is how the program treats it. -/
theorem c2_no_false_positives {α : Type} [DecidableEq α] (dig : List Byte → α)
    (hinj : Function.Injective dig) (o : Opt) (unix : Bool)
    (l : List Entry) (h2 : List (α × Entry)) (g2 : GState)
    (hnd : (l.map Entry.name).Nodup)
    (hrun : runBucket dig o unix [] ⟨[], 0⟩ l = .ok (h2, g2)) :
    (∀ e ∈ l, ∀ t ∈ l, e.content ≠ t.content →
      (Event.dupFound e.name t.name) ∉ g2.trace) ∧
    (∀ e ∈ l, (∀ t ∈ l, t.name ≠ e.name → t.content ≠ e.content) →
      (∀ t : Nat, (Event.dupFound e.name t) ∉ g2.trace) ∧
      (Event.removed e.name) ∉ g2.trace ∧
      (Event.reported e.name) ∉ g2.trace ∧
      (∀ (t : Nat) (tc : List Byte),
        (Event.linked e.name t tc) ∉ g2.trace)) := by
  obtain ⟨_, htr, _⟩ := runBucket_ok_char l [] ⟨[], 0⟩ h2 g2 hrun
  simp only [List.nil_append] at htr
  have hKey : ∀ (n t : Nat), (Event.dupFound n t) ∈ traceOf dig o unix [] l →
      ∃ l1 x l2 c, l = l1 ++ x :: l2 ∧ x.name = n ∧ c.name = t ∧
        c.content = x.content ∧ c ∈ l1 := by
    intro n t hev
    obtain ⟨l1, x, l2, c, hsplit, hn, ht, hdig, hc⟩ :=
      traceOf_dup_target_sound l [] (by simp) n t hev
    rcases hc with hc | ⟨hc1, _⟩
    · simp at hc
    · exact ⟨l1, x, l2, c, hsplit, hn, ht, hinj hdig, hc1⟩
  constructor
  · intro e he t htmem hne hev
    rw [htr] at hev
    obtain ⟨l1, x, l2, c, hsplit, hn, ht, hcon, hc1⟩ := hKey _ _ hev
    have hx : x ∈ l := by
      rw [hsplit]
      exact List.mem_append_right _ (List.mem_cons_self _ _)
    have hcmem : c ∈ l := by
      rw [hsplit]
      exact List.mem_append_left _ hc1
    have hxe : x = e := List.inj_on_of_nodup_map hnd hx he hn
    have hct : c = t := List.inj_on_of_nodup_map hnd hcmem htmem ht
    rw [hxe, hct] at hcon
    exact hne hcon.symm
  · intro e he huniqc
    have hnodup : ∀ t : Nat,
        (Event.dupFound e.name t) ∉ traceOf dig o unix [] l := by
      intro t hev
      obtain ⟨l1, x, l2, c, hsplit, hn, ht, hcon, hc1⟩ := hKey _ _ hev
      have hx : x ∈ l := by
        rw [hsplit]
        exact List.mem_append_right _ (List.mem_cons_self _ _)
      have hcmem : c ∈ l := by
        rw [hsplit]
        exact List.mem_append_left _ hc1
      have hxe : x = e := List.inj_on_of_nodup_map hnd hx he hn
      by_cases hcn : c.name = e.name
      · have hnd2 : (l1.map Entry.name ++
            x.name :: l2.map Entry.name).Nodup := by
          rw [hsplit] at hnd
          simpa using hnd
        rw [List.nodup_append] at hnd2
        have hdisj := hnd2.2.2
        have hcx : c.name = x.name := by rw [hcn, hn]
        exact hdisj (List.mem_map.mpr ⟨c, hc1, hcx⟩) (List.mem_cons_self _ _)
      · exact huniqc c hcmem hcn (by rw [hcon, hxe])
    refine ⟨fun t => by rw [htr]; exact hnodup t, ?_, ?_, ?_⟩
    · rw [htr]
      intro hev
      obtain ⟨t, ht⟩ := traceOf_removed_is_dup l [] e.name hev
      exact hnodup t ht
    · rw [htr]
      intro hev
      obtain ⟨t, ht⟩ := traceOf_reported_is_dup l [] e.name hev
      exact hnodup t ht
    · intro t tc
      rw [htr]
      intro hev
      obtain ⟨h1, _⟩ := traceOf_linked_is_dup l [] e.name t tc hev
      exact hnodup t h1

/-- Witness for claim C2: a concrete destructive run on a bucket of two
equal-length files with different content removes neither. -/
theorem c2_no_false_positives_witness :
    (Event.removed 1) ∉
      ([Event.hashed 0, Event.insertedCanonical 0, Event.hashed 1,
        Event.insertedCanonical 1] : List Event) ∧
    (Event.removed 0) ∉
      ([Event.hashed 0, Event.insertedCanonical 0, Event.hashed 1,
        Event.insertedCanonical 1] : List Event) := by
  have h := c2_no_false_positives (fun c => c) (fun a b hab => hab)
    ⟨false, false⟩ true
    [⟨0, 0, 1, .regular, [7], true, true, true, true, true⟩,
      ⟨1, 1, 1, .regular, [9], true, true, true, true, true⟩]
    [([7], ⟨0, 0, 1, .regular, [7], true, true, true, true, true⟩),
      ([9], ⟨1, 1, 1, .regular, [9], true, true, true, true, true⟩)]
    ⟨[Event.hashed 0, Event.insertedCanonical 0, Event.hashed 1,
      Event.insertedCanonical 1], 0⟩
    (by decide) rfl
  constructor
  · exact (h.2 ⟨1, 1, 1, .regular, [9], true, true, true, true, true⟩
      (by decide) (by decide)).2.1
  · exact (h.2 ⟨0, 0, 1, .regular, [7], true, true, true, true, true⟩
      (by decide) (by decide)).2.1


/-- Claim C3: every duplicate count reachable under some scheduling
(CountRel quantifies over all per-bucket permutations) equals the
specified count - the number of non-retained members of the
equal-length equal-content groups of each directory, summed over the
tree - and a fault-free run reports exactly that count; hence the
reported count is independent of scheduling. -/
theorem c3_count_is_spec_and_schedule_independent {α : Type}
    [DecidableEq α] (dig : List Byte → α) (hinj : Function.Injective dig) :
    (∀ (t : Node) (k : Nat), CountRel dig t k → k = specCountNode t) ∧
    (∀ (o : Opt) (unix : Bool) (t : Node), nodeOk o unix t = true →
      ∃ t2, process_directory dig o unix t = .ok (t2, specCountNode t)) :=
  ⟨CountRel_eq_spec hinj,
    fun o unix t h => process_directory_ok dig hinj o unix t h⟩

/-- Witness for claim C3: a dry run on a directory holding two
content-identical files and one different file reports exactly one
duplicate. -/
theorem c3_count_witness :
    ∃ t2, process_directory (fun c => c) ⟨true, false⟩ true
        (Node.dir ⟨9, 0, 0, .directory, [], true, true, true, true, true⟩ true
          [Node.file ⟨0, 0, 1, .regular, [7], true, true, true, true, true⟩,
           Node.file ⟨1, 1, 1, .regular, [7], true, true, true, true, true⟩,
           Node.file ⟨2, 2, 3, .regular, [1, 2, 3], true, true, true, true,
             true⟩]) =
      .ok (t2, 1) := by
  have h := (c3_count_is_spec_and_schedule_independent (fun c => c)
    (fun a b hab => hab)).2 ⟨true, false⟩ true
    (Node.dir ⟨9, 0, 0, .directory, [], true, true, true, true, true⟩ true
      [Node.file ⟨0, 0, 1, .regular, [7], true, true, true, true, true⟩,
       Node.file ⟨1, 1, 1, .regular, [7], true, true, true, true, true⟩,
       Node.file ⟨2, 2, 3, .regular, [1, 2, 3], true, true, true, true,
         true⟩]) rfl
  exact h

/-- Claim C4: in destructive link mode on a platform with symbolic
links, every detected duplicate is removed and a link is created at its
path pointing at the canonical entry of the same bucket; resolving that
link yields the canonical content, which equals the content the
duplicate had before removal, and the canonical file itself is never
removed.  Without platform symbolic-link support the mode degrades to
plain deletion: a removal still happens for every duplicate and no link
event ever occurs. -/
theorem c4_symlink_mode {α : Type} [DecidableEq α] (dig : List Byte → α)
    (hinj : Function.Injective dig) (o : Opt) (unix : Bool)
    (hdry : o.dry = false) (hsym : o.symlink = true)
    (l : List Entry) (h2 : List (α × Entry)) (g2 : GState)
    (hnd : (l.map Entry.name).Nodup)
    (hrun : runBucket dig o unix [] ⟨[], 0⟩ l = .ok (h2, g2)) :
    (∀ n t : Nat, (Event.dupFound n t) ∈ g2.trace →
      (Event.removed n) ∈ g2.trace ∧
      (unix = true →
        ∃ c ∈ l, c.name = t ∧ (Event.linked n t c.content) ∈ g2.trace ∧
          traceLink g2.trace n = some (t, c.content) ∧
          (Event.removed t) ∉ g2.trace ∧
          ∃ e ∈ l, e.name = n ∧ e.content = c.content)) ∧
    (unix = false → ∀ (n t : Nat) (tc : List Byte),
      (Event.linked n t tc) ∉ g2.trace) := by
  obtain ⟨_, htr, _⟩ := runBucket_ok_char l [] ⟨[], 0⟩ h2 g2 hrun
  simp only [List.nil_append] at htr
  constructor
  · intro n t hdup
    rw [htr] at hdup
    obtain ⟨hrem, hlink⟩ := traceOf_dup_companions hdry l [] n t hdup
    refine ⟨by rw [htr]; exact hrem, ?_⟩
    intro hunix
    have hls : (unix && o.symlink) = true := by rw [hunix, hsym]; rfl
    obtain ⟨tc, htc⟩ := hlink hls
    obtain ⟨l1, x, l2, c, hsplit, hn, ht, htcc, hdig, hc⟩ :=
      traceOf_linked_target_sound l [] (by simp) n t tc htc
    rcases hc with hc | ⟨hc1, hcins⟩
    · simp at hc
    have hcmem : c ∈ l := by
      rw [hsplit]
      exact List.mem_append_left _ hc1
    have hx : x ∈ l := by
      rw [hsplit]
      exact List.mem_append_right _ (List.mem_cons_self _ _)
    subst htcc
    refine ⟨c, hcmem, ht, by rw [htr]; exact htc, ?_, ?_, x, hx, hn,
      (hinj hdig).symm⟩
    · rw [htr]
      refine traceLink_eq_some htc ?_
      intro t2 tc2 hin
      obtain ⟨hp1, hp2⟩ :=
        traceOf_linked_unique l [] hnd n t t2 c.content tc2 htc hin
      exact ⟨hp1.symm, hp2.symm⟩
    · rw [htr]
      intro hrt
      obtain ⟨t3, hdup3⟩ := traceOf_removed_is_dup l [] t hrt
      exact traceOf_not_canonical_and_dup l [] hnd t t3
        (by rw [← ht]; exact hcins) hdup3
  · intro hnonunix n t tc
    rw [htr]
    have hls : (unix && o.symlink) = false := by rw [hnonunix]; rfl
    exact traceOf_nounix_no_linked hls l [] n t tc

/-- Witness for claim C4: a concrete link-mode run on a two-file
duplicate group removes the duplicate (name 1) and never removes the
canonical file (name 0). -/
theorem c4_symlink_mode_witness :
    (Event.removed 1) ∈
      ([Event.hashed 0, Event.insertedCanonical 0, Event.hashed 1,
        Event.dupFound 1 0, Event.removed 1,
        Event.linked 1 0 [7]] : List Event) ∧
    (Event.removed 0) ∉
      ([Event.hashed 0, Event.insertedCanonical 0, Event.hashed 1,
        Event.dupFound 1 0, Event.removed 1,
        Event.linked 1 0 [7]] : List Event) := by
  have h := c4_symlink_mode (fun c => c) (fun a b hab => hab)
    ⟨false, true⟩ true rfl rfl
    [⟨0, 0, 1, .regular, [7], true, true, true, true, true⟩,
      ⟨1, 1, 1, .regular, [7], true, true, true, true, true⟩]
    [([7], ⟨0, 0, 1, .regular, [7], true, true, true, true, true⟩)]
    ⟨[Event.hashed 0, Event.insertedCanonical 0, Event.hashed 1,
      Event.dupFound 1 0, Event.removed 1, Event.linked 1 0 [7]], 1⟩
    (by decide) rfl
  have h1 := h.1 1 0 (by decide)
  obtain ⟨c, hcmem, hct, hlk, htl, hnorem, _⟩ := h1.2 rfl
  refine ⟨h1.1, ?_⟩
  exact hnorem

/-- Claim C5: a dry run mutates nothing - the processed tree is
returned unchanged, so running the dry scan again yields the same
result and count - and at the bucket level every detected duplicate
produces exactly one report line and one counter increment, with no
removal and no link creation. -/
theorem c5_dry_run_no_mutation {α : Type} [DecidableEq α]
    (dig : List Byte → α) (o : Opt) (unix : Bool) (hdry : o.dry = true) :
    (∀ (t t2 : Node) (k : Nat),
      process_directory dig o unix t = .ok (t2, k) →
      t2 = t ∧ process_directory dig o unix t2 = .ok (t2, k)) ∧
    (∀ (l : List Entry) (h2 : List (α × Entry)) (g2 : GState),
      runBucket dig o unix [] ⟨[], 0⟩ l = .ok (h2, g2) →
      g2.count = g2.trace.countP (fun ev => isReportedEvt ev) ∧
      g2.count = g2.trace.countP (fun ev => isDupFoundEvt ev) ∧
      (∀ n : Nat, (Event.removed n) ∉ g2.trace) ∧
      (∀ (n t : Nat) (tc : List Byte),
        (Event.linked n t tc) ∉ g2.trace)) := by
  constructor
  · intro t t2 k hr
    have h1 := process_directory_dry_id dig o unix hdry t t2 k hr
    subst h1
    exact ⟨rfl, hr⟩
  · intro l h2 g2 hrun
    obtain ⟨_, htr, hcnt⟩ := runBucket_ok_char l [] ⟨[], 0⟩ h2 g2 hrun
    simp only [List.nil_append] at htr
    obtain ⟨hr1, hr2⟩ := @traceOf_dry_counts α _ dig o unix hdry l []
    refine ⟨?_, ?_, ?_, ?_⟩
    · rw [hcnt, htr, hr1]
      simp
    · rw [hcnt, htr, hr2]
      simp
    · intro n
      rw [htr]
      exact traceOf_dry_no_removed hdry l [] n
    · intro n t tc
      rw [htr]
      exact traceOf_dry_no_linked hdry l [] n t tc

/-- Witness for claim C5: a concrete dry run leaves the tree unchanged
and a rerun reports the same count. -/
theorem c5_dry_run_witness :
    (Node.dir ⟨9, 0, 0, .directory, [], true, true, true, true, true⟩ true
        [Node.file ⟨0, 0, 1, .regular, [7], true, true, true, true, true⟩,
         Node.file ⟨1, 1, 1, .regular, [7], true, true, true, true, true⟩] =
      Node.dir ⟨9, 0, 0, .directory, [], true, true, true, true, true⟩ true
        [Node.file ⟨0, 0, 1, .regular, [7], true, true, true, true, true⟩,
         Node.file ⟨1, 1, 1, .regular, [7], true, true, true, true, true⟩]) ∧
    process_directory (fun c => c) ⟨true, false⟩ true
        (Node.dir ⟨9, 0, 0, .directory, [], true, true, true, true, true⟩ true
          [Node.file ⟨0, 0, 1, .regular, [7], true, true, true, true, true⟩,
           Node.file ⟨1, 1, 1, .regular, [7], true, true, true, true, true⟩]) =
      .ok (Node.dir ⟨9, 0, 0, .directory, [], true, true, true, true, true⟩
          true
          [Node.file ⟨0, 0, 1, .regular, [7], true, true, true, true, true⟩,
           Node.file ⟨1, 1, 1, .regular, [7], true, true, true, true, true⟩],
        1) :=
  (c5_dry_run_no_mutation (fun c => c) ⟨true, false⟩ true rfl).1
    (Node.dir ⟨9, 0, 0, .directory, [], true, true, true, true, true⟩ true
      [Node.file ⟨0, 0, 1, .regular, [7], true, true, true, true, true⟩,
       Node.file ⟨1, 1, 1, .regular, [7], true, true, true, true, true⟩])
    (Node.dir ⟨9, 0, 0, .directory, [], true, true, true, true, true⟩ true
      [Node.file ⟨0, 0, 1, .regular, [7], true, true, true, true, true⟩,
       Node.file ⟨1, 1, 1, .regular, [7], true, true, true, true, true⟩])
    1 rfl

/-- Claim C6: a file whose metadata length is unique among the bucketed
entries of its directory lands in a singleton bucket, which the bucket
phase skips entirely: no content read or digest computation is recorded
for it, it is never removed or replaced by a link, and it survives the
replay of the recorded effects on the directory. -/
theorem c6_unique_size_never_hashed {α : Type} [DecidableEq α]
    (dig : List Byte → α) (o : Opt) (unix : Bool)
    (children : List Node) (f : Entry) (g2 : GState)
    (hmem : f ∈ filesOf children)
    (huniq : (filesOf children).countP (fun x => x.len = f.len) = 1)
    (hnd : ((filesOf children).map Entry.name).Nodup)
    (hrb : runBuckets dig o unix ⟨[], 0⟩
      (collectBuckets (sortByCreated (filesOf children))) = .ok g2) :
    (Event.hashed f.name) ∉ g2.trace ∧
    (Event.removed f.name) ∉ g2.trace ∧
    (∀ (t : Nat) (tc : List Byte), (Event.linked f.name t tc) ∉ g2.trace) ∧
    (∀ cs : List Node, Node.file f ∈ cs →
      Node.file f ∈ applyTrace g2.trace cs) := by
  obtain ⟨htr, _⟩ := runBuckets_ok_char _ _ _ hrb
  simp only [List.nil_append] at htr
  have hnone : ∀ ev ∈ tracesOf dig o unix
      (collectBuckets (sortByCreated (filesOf children))),
      evName ev ≠ f.name := by
    intro ev hev heq
    obtain ⟨kb, hkb, hlen, e, he, hn⟩ := tracesOf_name_mem _ ev hev
    obtain ⟨k, b⟩ := kb
    have hb : b = (sortByCreated (filesOf children)).filter
        (fun x => x.len = k) := mem_collectBuckets_eq hkb
    by_cases hk : k = f.len
    · subst hk
      have hcount : ((sortByCreated (filesOf children)).filter
          (fun x => x.len = f.len)).length = 1 := by
        rw [← List.countP_eq_length_filter,
          (sortByCreated_perm (filesOf children)).countP_eq]
        exact huniq
      rw [hb, hcount] at hlen
      simp at hlen
    · have he2 : e ∈ sortByCreated (filesOf children) := by
        rw [hb] at he
        exact List.mem_of_mem_filter he
      have he3 : e ∈ filesOf children := (sortByCreated_perm _).subset he2
      have hef : e = f :=
        List.inj_on_of_nodup_map hnd he3 hmem (by rw [← hn, heq])
      have helen : e.len = k := by
        rw [hb] at he
        have := List.mem_filter.mp he
        simpa using this.2
      rw [hef] at helen
      exact hk helen.symm
  have hnh : (Event.hashed f.name) ∉ g2.trace := by
    rw [htr]
    intro hev
    exact hnone _ hev rfl
  have hnr : (Event.removed f.name) ∉ g2.trace := by
    rw [htr]
    intro hev
    exact hnone _ hev rfl
  have hnl : ∀ (t : Nat) (tc : List Byte),
      (Event.linked f.name t tc) ∉ g2.trace := by
    intro t tc
    rw [htr]
    intro hev
    exact hnone _ hev rfl
  exact ⟨hnh, hnr, hnl, fun cs hcs =>
    applyTrace_keep (traceLink_eq_none hnl) (traceDeleted_eq_false hnr) hcs⟩

/-- Witness for claim C6: in a directory with one file of unique length
and a duplicate pair of another length, the unique-length file is
neither hashed nor removed while the duplicate is removed. -/
theorem c6_unique_size_witness :
    (Event.hashed 0) ∉
      ([Event.hashed 1, Event.insertedCanonical 1, Event.hashed 2,
        Event.dupFound 2 1, Event.removed 2] : List Event) ∧
    (Event.removed 0) ∉
      ([Event.hashed 1, Event.insertedCanonical 1, Event.hashed 2,
        Event.dupFound 2 1, Event.removed 2] : List Event) := by
  have h := c6_unique_size_never_hashed (fun c => c) ⟨false, false⟩ true
    [Node.file ⟨0, 0, 1, .regular, [9], true, true, true, true, true⟩,
     Node.file ⟨1, 1, 2, .regular, [5, 5], true, true, true, true, true⟩,
     Node.file ⟨2, 2, 2, .regular, [5, 5], true, true, true, true, true⟩]
    ⟨0, 0, 1, .regular, [9], true, true, true, true, true⟩
    ⟨[Event.hashed 1, Event.insertedCanonical 1, Event.hashed 2,
      Event.dupFound 2 1, Event.removed 2], 1⟩
    (by decide) (by decide) (by decide) rfl
  exact ⟨h.1, h.2.1⟩

/-- Claim C7: every fatal condition aborts the run with an error and no
success summary, with no retry and no partial recovery: an unreadable
directory, unavailable metadata, an unavailable creation timestamp when
the sorting comparator runs, a child-task error, a bucket-phase error, a
file-read failure while digesting, a delete failure and a link-creation
failure each produce the corresponding RunError, errors propagate
unchanged through the directory walker, and a run that ends in an error
produces no summary line. -/
theorem c7_every_error_fatal {α : Type} [DecidableEq α]
    (dig : List Byte → α) (o : Opt) (unix : Bool) :
    (∀ (e : Entry) (cs : List Node),
      process_directory dig o unix (.dir e false cs) =
        .error .dirUnreadable) ∧
    (∀ (e : Entry) (cs : List Node) (c : Node), c ∈ cs →
      c.info.metaOk = false →
      process_directory dig o unix (.dir e true cs) =
        .error .metadataUnavailable) ∧
    (∀ (e : Entry) (cs : List Node) (c : Node),
      (∀ x ∈ cs, x.info.metaOk = true) → 2 ≤ cs.length → c ∈ cs →
      c.info.createdOk = false →
      process_directory dig o unix (.dir e true cs) =
        .error .timestampUnsupported) ∧
    (∀ (e : Entry) (cs : List Node) (err : RunError),
      (∀ x ∈ cs, x.info.metaOk = true) →
      (∀ x ∈ cs, x.info.createdOk = true) →
      processChildren dig o unix cs = .error err →
      process_directory dig o unix (.dir e true cs) = .error err) ∧
    (∀ (e : Entry) (cs cs2 : List Node) (k : Nat) (err : RunError)
        (g : GState),
      (∀ x ∈ cs, x.info.metaOk = true) →
      (∀ x ∈ cs, x.info.createdOk = true) →
      processChildren dig o unix cs = .ok (cs2, k) →
      runBuckets dig o unix ⟨[], 0⟩
        (collectBuckets (sortByCreated (filesOf cs))) = .error (err, g) →
      process_directory dig o unix (.dir e true cs) = .error err) ∧
    (∀ (h : List (α × Entry)) (g : GState) (x : Entry) (rest : List Entry),
      x.readOk = false →
      runBucket dig o unix h g (x :: rest) = .error (.fileReadFailed, g)) ∧
    (∀ (h : List (α × Entry)) (g : GState) (x : Entry) (p : α × Entry),
      h.find? (fun q => q.1 = dig x.content) = some p → x.readOk = true →
      o.dry = false → x.removeOk = false →
      ∃ g2, stepEntry dig o unix h g x = .error (.deleteFailed, g2)) ∧
    (∀ (h : List (α × Entry)) (g : GState) (x : Entry) (p : α × Entry),
      h.find? (fun q => q.1 = dig x.content) = some p → x.readOk = true →
      o.dry = false → x.removeOk = true → (unix && o.symlink) = true →
      x.linkOk = false →
      ∃ g2, stepEntry dig o unix h g x = .error (.linkFailed, g2)) ∧
    (∀ (t : Node) (err : RunError),
      process_directory dig o unix t = .error err →
      mainRun dig o unix t = .error err) := by
  refine ⟨?_, ?_, ?_, ?_, ?_, ?_, ?_, ?_, ?_⟩
  · intro e cs
    rfl
  · intro e cs c hc hcf
    have h2 : cs.any (fun c => c.info.metaOk = false) = true := by
      rw [List.any_eq_true]
      exact ⟨c, hc, by simp [hcf]⟩
    rw [process_directory_dir_unfold, if_neg (by simp), if_pos h2]
  · intro e cs c hm hlen hc hcf
    have h2 : ¬ (cs.any (fun c => c.info.metaOk = false) = true) := by
      rw [List.any_eq_true]
      rintro ⟨x, hx, hxf⟩
      rw [hm x hx] at hxf
      simp at hxf
    have h3 : 2 ≤ cs.length ∧
        cs.any (fun c => c.info.createdOk = false) = true := by
      refine ⟨hlen, ?_⟩
      rw [List.any_eq_true]
      exact ⟨c, hc, by simp [hcf]⟩
    rw [process_directory_dir_unfold, if_neg (by simp), if_neg h2, if_pos h3]
  · intro e cs err hm hc hpc
    have h2 : ¬ (cs.any (fun c => c.info.metaOk = false) = true) := by
      rw [List.any_eq_true]
      rintro ⟨x, hx, hxf⟩
      rw [hm x hx] at hxf
      simp at hxf
    have h3 : ¬ (2 ≤ cs.length ∧
        cs.any (fun c => c.info.createdOk = false) = true) := by
      rintro ⟨_, hany⟩
      rw [List.any_eq_true] at hany
      obtain ⟨x, hx, hxf⟩ := hany
      rw [hc x hx] at hxf
      simp at hxf
    rw [process_directory_dir_unfold, if_neg (by simp), if_neg h2,
      if_neg h3, hpc]
  · intro e cs cs2 k err g hm hc hpc hrb
    have h2 : ¬ (cs.any (fun c => c.info.metaOk = false) = true) := by
      rw [List.any_eq_true]
      rintro ⟨x, hx, hxf⟩
      rw [hm x hx] at hxf
      simp at hxf
    have h3 : ¬ (2 ≤ cs.length ∧
        cs.any (fun c => c.info.createdOk = false) = true) := by
      rintro ⟨_, hany⟩
      rw [List.any_eq_true] at hany
      obtain ⟨x, hx, hxf⟩ := hany
      rw [hc x hx] at hxf
      simp at hxf
    rw [process_directory_dir_unfold, if_neg (by simp), if_neg h2,
      if_neg h3, hpc, hrb]
  · intro h g x rest hx
    simp [runBucket, stepEntry, hx]
  · intro h g x p hfind hread hdry hrm
    have hre : ¬ (x.readOk = false) := by simp [hread]
    refine ⟨⟨(g.trace ++ [.hashed x.name]) ++ [.dupFound x.name p.2.name],
      g.count + 1⟩, ?_⟩
    simp [stepEntry, hre, hfind, hdry, hrm]
  · intro h g x p hfind hread hdry hrm hls hlk
    have hre : ¬ (x.readOk = false) := by simp [hread]
    have hrm2 : ¬ (x.removeOk = false) := by simp [hrm]
    refine ⟨⟨((g.trace ++ [.hashed x.name]) ++ [.dupFound x.name p.2.name])
      ++ [.removed x.name], g.count + 1⟩, ?_⟩
    simp [stepEntry, hre, hfind, hdry, hrm2, hls, hlk]
  · intro t err hperr
    simp only [mainRun, hperr]

/-- Witness for claim C7: concrete fatal runs - an unreadable root
directory aborts with dirUnreadable and mainRun then produces no
summary, and an unreadable file in a two-entry bucket aborts with
fileReadFailed. -/
theorem c7_every_error_fatal_witness :
    process_directory (fun c => c) ⟨false, false⟩ true
        (Node.dir ⟨9, 0, 0, .directory, [], true, true, true, true, true⟩
          false
          [Node.file ⟨0, 0, 1, .regular, [7], true, true, true, true,
            true⟩]) =
      .error .dirUnreadable ∧
    mainRun (fun c => c) ⟨false, false⟩ true
        (Node.dir ⟨9, 0, 0, .directory, [], true, true, true, true, true⟩
          false
          [Node.file ⟨0, 0, 1, .regular, [7], true, true, true, true,
            true⟩]) =
      .error .dirUnreadable ∧
    runBucket (fun c => c) ⟨false, false⟩ true [] ⟨[], 0⟩
        [⟨0, 0, 1, .regular, [7], true, true, false, true, true⟩,
          ⟨1, 1, 1, .regular, [7], true, true, true, true, true⟩] =
      .error (.fileReadFailed, ⟨[], 0⟩) := by
  have h := c7_every_error_fatal (fun c => c) (⟨false, false⟩ : Opt) true
  refine ⟨h.1 ⟨9, 0, 0, .directory, [], true, true, true, true, true⟩
    [Node.file ⟨0, 0, 1, .regular, [7], true, true, true, true, true⟩],
    ?_, ?_⟩
  · refine h.2.2.2.2.2.2.2.2 _ .dirUnreadable ?_
    exact h.1 ⟨9, 0, 0, .directory, [], true, true, true, true, true⟩
      [Node.file ⟨0, 0, 1, .regular, [7], true, true, true, true, true⟩]
  · exact h.2.2.2.2.2.1 [] ⟨[], 0⟩
      ⟨0, 0, 1, .regular, [7], true, true, false, true, true⟩
      [⟨1, 1, 1, .regular, [7], true, true, true, true, true⟩] rfl

/-- Claim C8: a successful run prints exactly one summary line, reading
Would have deleted N files under the dry flag and Deleted N files
otherwise, where N is the final counter value after the whole task tree
has joined; under a collision-free digest and a fault-free tree, N is
the specified duplicate count. -/
theorem c8_summary_line {α : Type} [DecidableEq α] (dig : List Byte → α)
    (o : Opt) (unix : Bool) (root : Node) :
    (∀ (t2 : Node) (n : Nat),
      process_directory dig o unix root = .ok (t2, n) →
      mainRun dig o unix root =
        .ok (if o.dry then "Would have deleted " ++ toString n ++ " files"
             else "Deleted " ++ toString n ++ " files")) ∧
    (Function.Injective dig → nodeOk o unix root = true →
      mainRun dig o unix root =
        .ok (if o.dry then
              "Would have deleted " ++ toString (specCountNode root) ++
                " files"
             else "Deleted " ++ toString (specCountNode root) ++
                " files")) := by
  constructor
  · intro t2 n hp
    simp only [mainRun, hp]
  · intro hinj hok
    obtain ⟨t2, hp⟩ := process_directory_ok dig hinj o unix root hok
    simp only [mainRun, hp]

/-- Witness for claim C8: a concrete dry run and a concrete destructive
run print the expected single summary line. -/
theorem c8_summary_line_witness :
    mainRun (fun c => c) ⟨true, false⟩ true
        (Node.dir ⟨9, 0, 0, .directory, [], true, true, true, true, true⟩ true
          [Node.file ⟨0, 0, 1, .regular, [7], true, true, true, true, true⟩,
           Node.file ⟨1, 1, 1, .regular, [7], true, true, true, true,
             true⟩]) =
      .ok "Would have deleted 1 files" ∧
    mainRun (fun c => c) ⟨false, false⟩ true
        (Node.dir ⟨9, 0, 0, .directory, [], true, true, true, true, true⟩ true
          [Node.file ⟨0, 0, 1, .regular, [7], true, true, true, true, true⟩,
           Node.file ⟨1, 1, 1, .regular, [7], true, true, true, true,
             true⟩]) =
      .ok "Deleted 1 files" := by
  constructor
  · exact (c8_summary_line (fun c => c) ⟨true, false⟩ true
      (Node.dir ⟨9, 0, 0, .directory, [], true, true, true, true, true⟩ true
        [Node.file ⟨0, 0, 1, .regular, [7], true, true, true, true, true⟩,
         Node.file ⟨1, 1, 1, .regular, [7], true, true, true, true,
           true⟩])).2 (fun a b hab => hab) rfl
  · exact (c8_summary_line (fun c => c) ⟨false, false⟩ true
      (Node.dir ⟨9, 0, 0, .directory, [], true, true, true, true, true⟩ true
        [Node.file ⟨0, 0, 1, .regular, [7], true, true, true, true, true⟩,
         Node.file ⟨1, 1, 1, .regular, [7], true, true, true, true,
           true⟩])).2 (fun a b hab => hab) rfl

/-- Claim C9: for a duplicate in a destructive mode the counter is
incremented before the removal and before any link creation is
attempted: when the removal fails the run aborts carrying the counter
already incremented and no removal recorded, and when the link creation
fails the run aborts carrying the counter incremented and the removal
already performed - nothing is rolled back. -/
theorem c9_counter_incremented_before_action {α : Type} [DecidableEq α]
    (dig : List Byte → α) (o : Opt) (unix : Bool) (hdry : o.dry = false)
    (l1 : List Entry) (x : Entry) (l2 : List Entry)
    (h1 : List (α × Entry)) (g1 : GState) (p : α × Entry)
    (hrun1 : runBucket dig o unix [] ⟨[], 0⟩ l1 = .ok (h1, g1))
    (hfind : h1.find? (fun q => q.1 = dig x.content) = some p)
    (hread : x.readOk = true) :
    (x.removeOk = false →
      runBucket dig o unix [] ⟨[], 0⟩ (l1 ++ x :: l2) =
        .error (.deleteFailed,
          ⟨(g1.trace ++ [.hashed x.name]) ++ [.dupFound x.name p.2.name],
            g1.count + 1⟩)) ∧
    ((unix && o.symlink) = true → x.removeOk = true → x.linkOk = false →
      runBucket dig o unix [] ⟨[], 0⟩ (l1 ++ x :: l2) =
        .error (.linkFailed,
          ⟨((g1.trace ++ [.hashed x.name]) ++ [.dupFound x.name p.2.name])
            ++ [.removed x.name], g1.count + 1⟩)) := by
  have hre : ¬ (x.readOk = false) := by simp [hread]
  constructor
  · intro hrm
    rw [runBucket_append, hrun1]
    simp only [runBucket]
    simp [stepEntry, hre, hfind, hdry, hrm]
  · intro hls hrm hlk
    have hrm2 : ¬ (x.removeOk = false) := by simp [hrm]
    rw [runBucket_append, hrun1]
    simp only [runBucket]
    simp [stepEntry, hre, hfind, hdry, hrm2, hls, hlk]

/-- Witness for claim C9: a failing removal of a concrete duplicate
aborts with deleteFailed while the counter already reads 1. -/
theorem c9_counter_witness :
    runBucket (fun c => c) ⟨false, false⟩ true [] ⟨[], 0⟩
        [⟨0, 0, 1, .regular, [7], true, true, true, true, true⟩,
          ⟨1, 1, 1, .regular, [7], true, true, true, false, true⟩] =
      .error (.deleteFailed,
        ⟨[Event.hashed 0, Event.insertedCanonical 0, Event.hashed 1,
          Event.dupFound 1 0], 1⟩) := by
  have h := c9_counter_incremented_before_action (fun c => c)
    (⟨false, false⟩ : Opt) true rfl
    [⟨0, 0, 1, .regular, [7], true, true, true, true, true⟩]
    ⟨1, 1, 1, .regular, [7], true, true, true, false, true⟩ []
    [([7], ⟨0, 0, 1, .regular, [7], true, true, true, true, true⟩)]
    ⟨[Event.hashed 0, Event.insertedCanonical 0], 0⟩
    ([7], ⟨0, 0, 1, .regular, [7], true, true, true, true, true⟩)
    rfl rfl rfl
  exact h.1 rfl

/-- Claim C10: a directory entry whose file type is a symbolic link is
never recursed into as a subdirectory task - it fails the recursion
test, and the walker passes it through with zero recursive count -
instead it is inserted into the size bucket keyed by its own
non-followed metadata length; the final conjunct runs a concrete
directory in which such a symbolic-link entry is itself classified as a
duplicate and removed. -/
theorem c10_symlink_entries {α : Type} [DecidableEq α]
    (dig : List Byte → α) (o : Opt) (unix : Bool) :
    (∀ c : Node, Node.ftype c = FileType.symlink →
      isDirNotSymlink c = false) ∧
    (∀ (c : Node) (rest cs2 : List Node) (k : Nat),
      Node.ftype c = FileType.symlink →
      processChildren dig o unix (c :: rest) = .ok (cs2, k) →
      ∃ rest2, cs2 = c :: rest2 ∧
        processChildren dig o unix rest = .ok (rest2, k)) ∧
    (∀ (children : List Node) (c : Node), c ∈ children →
      Node.ftype c = FileType.symlink →
      c.info ∈ bucketAt (collectBuckets (sortByCreated (filesOf children)))
        c.info.len) ∧
    process_directory (fun cc => cc) (⟨false, false⟩ : Opt) true
        (Node.dir ⟨9, 0, 0, .directory, [], true, true, true, true, true⟩ true
          [Node.file ⟨0, 0, 2, .regular, [5, 5], true, true, true, true,
            true⟩,
           Node.file ⟨1, 1, 2, .symlink, [5, 5], true, true, true, true,
            true⟩]) =
      .ok (Node.dir ⟨9, 0, 0, .directory, [], true, true, true, true, true⟩
          true
          [Node.file ⟨0, 0, 2, .regular, [5, 5], true, true, true, true,
            true⟩], 1) := by
  have hP1 : ∀ c : Node, Node.ftype c = FileType.symlink →
      isDirNotSymlink c = false := by
    intro c hft
    rw [isDirNotSymlink, hft]
    rfl
  refine ⟨hP1, ?_, ?_, rfl⟩
  · intro c rest cs2 k hft hpc
    exact processChildren_pass (hP1 c hft) hpc
  · intro children c hc hft
    have hinfo : c.info ∈ filesOf children := by
      rw [filesOf]
      exact List.mem_map.mpr ⟨c,
        List.mem_filter.mpr ⟨hc, by simp [hP1 c hft]⟩, rfl⟩
    have hsorted : c.info ∈ sortByCreated (filesOf children) :=
      ((sortByCreated_perm _).mem_iff).mpr hinfo
    rw [collectBuckets_at]
    exact List.mem_filter.mpr ⟨hsorted, by simp⟩

/-- Witness for claim C10: the concrete symbolic-link entry fails the
recursion test and sits in the size bucket of its own length. -/
theorem c10_symlink_entries_witness :
    isDirNotSymlink (Node.file ⟨1, 1, 2, .symlink, [5, 5], true, true, true,
      true, true⟩) = false ∧
    (⟨1, 1, 2, .symlink, [5, 5], true, true, true, true, true⟩ : Entry) ∈
      bucketAt (collectBuckets (sortByCreated (filesOf
        [Node.file ⟨0, 0, 2, .regular, [5, 5], true, true, true, true, true⟩,
         Node.file ⟨1, 1, 2, .symlink, [5, 5], true, true, true, true,
           true⟩]))) 2 := by
  have h := c10_symlink_entries (fun c => c) (⟨false, false⟩ : Opt) true
  refine ⟨h.1 _ rfl, ?_⟩
  exact h.2.2.1
    [Node.file ⟨0, 0, 2, .regular, [5, 5], true, true, true, true, true⟩,
     Node.file ⟨1, 1, 2, .symlink, [5, 5], true, true, true, true, true⟩]
    (Node.file ⟨1, 1, 2, .symlink, [5, 5], true, true, true, true, true⟩)
    (List.mem_cons_of_mem _ (List.mem_cons_self _ _)) rfl

end Cleanup
